import Mathlib

/-!
Verification of the version model and release-selection engine of
FAU-CDI/composer-drupal-update against its natural-language specification.

Go strings are modelled as `List Char` (sequences of runes).  The searched
markers and all literals relevant to the claims are ASCII, for which rune
indices and byte indices agree on valid UTF-8 input, so `strings.Index`,
slicing and `strings.SplitN` are modelled at the rune level.  Go's `int` is
modelled as a wrapping 64-bit signed integer (`wrap64`), since the parsers
accumulate digits with Go `int` arithmetic, which wraps on overflow.
-/

/-- Convert a Lean string literal to the `List Char` model of a Go string. -/
def chars (s : String) : List Char := s.toList

/-- Model of `ch >= '0' && ch <= '9'` used by the Go digit scanners. -/
def isDigit (c : Char) : Bool := decide ('0' ≤ c) && decide (c ≤ '9')

/-- ASCII case mapping for one rune.  Model of Go's `strings.ToLower` at the
character level: the only markers ever searched in lowered strings are ASCII
(`-rc`, `-beta`, `-alpha`, `dev`), and no rune outside `A`–`Z` lowercases to
one of their letters, so the ASCII mapping is adequate for these uses. -/
def lowCh (c : Char) : Char :=
  if 'A' ≤ c ∧ c ≤ 'Z' then Char.ofNat (c.toNat + 32) else c

/-- Model of `strings.ToLower`. -/
def lowStr (s : List Char) : List Char := s.map lowCh

/-- Model of `strings.EqualFold` restricted to ASCII folding (the patterns
compared against are `RC`, `beta`, `alpha`, all ASCII). -/
def eqFold (a b : List Char) : Bool := decide (lowStr a = lowStr b)

/-- Model of `strings.Index s pat`: index of the first occurrence of `pat`
in `s`, or `none` when absent (Go returns -1). -/
def goIndex (s pat : List Char) : Option Nat :=
  match s with
  | [] => if pat = [] then some 0 else none
  | c :: t => if pat.isPrefixOf (c :: t) then some 0
              else (goIndex t pat).map (fun n => n + 1)

/-- Model of `strings.Contains`. -/
def goContains (s pat : List Char) : Bool := (goIndex s pat).isSome

/-- Model of `strings.TrimPrefix p s` (drop `p` when it starts `s`). -/
def trimPfx (p s : List Char) : List Char :=
  if p.isPrefixOf s then s.drop p.length else s

/-- Model of `strings.SplitN s sep n` for a one-character separator.
As in Go, the result has at most `n` chunks, the last chunk keeping the
remaining separators; `splitNOn sep n "" = [""]` for `n ≥ 1`. -/
def splitNOn (sep : Char) (n : Nat) (s : List Char) : List (List Char) :=
  match n with
  | 0 => []
  | 1 => [s]
  | Nat.succ (Nat.succ m) =>
    match List.span (fun c => decide (¬ (c = sep))) s with
    | (before, []) => [before]
    | (before, _ :: tail) => before :: splitNOn sep (Nat.succ m) tail

/-- Model of unbounded `strings.Split` for a one-character separator:
`splitNOn` with enough chunks to never truncate. -/
def splitAll (sep : Char) (s : List Char) : List (List Char) :=
  splitNOn sep (s.length + 1) s

/-- Go `strings.TrimSpace` restricted to ASCII whitespace (the branch lists
in the catalog use plain spaces). -/
def isSpace (c : Char) : Bool :=
  decide (c = ' ') || decide (c = '\t') || decide (c = '\n') || decide (c = '\r')

/-- Model of `strings.TrimSpace`. -/
def trimSpace (s : List Char) : List Char :=
  ((s.dropWhile isSpace).reverse.dropWhile isSpace).reverse

/-- Go string comparison `a < b`: lexicographic on bytes, which agrees with
lexicographic comparison of code points on valid UTF-8. -/
def charsLt : List Char → List Char → Bool
  | [], [] => false
  | [], _ :: _ => true
  | _ :: _, [] => false
  | a :: as_, b :: bs => if a < b then true else if b < a then false else charsLt as_ bs

/-- Wrap an integer to signed 64-bit, modelling Go `int` overflow. -/
def wrap64 (n : Int) : Int := (n + 2 ^ 63) % 2 ^ 64 - 2 ^ 63

/-- Loop of `parseLeadingInt` (version.go / part_003 variant, no ok flag):
`n = n*10 + int(ch-'0')` with Go `int` (wrapping) arithmetic; Go's two
separately wrapping operations `n*10` and `+ d` compose to one `wrap64`. -/
def pliLoop : List Char → Int → Int
  | [], n => n
  | c :: t, n =>
    if isDigit c then pliLoop t (wrap64 (n * 10 + ((c.toNat : Int) - 48))) else n

/-- Model of `parseLeadingInt` from version.go and part_003: value of the
leading digit run, 0 when the string starts with a non-digit. -/
def parseLeadingIntS (s : List Char) : Int := pliLoop s 0

/-- Loop of drupalupdate.go's `parseLeadingInt` (returns a found flag). -/
def pliOkLoop : List Char → Int → Bool → Int × Bool
  | [], n, f => (n, f)
  | c :: t, n, f =>
    if isDigit c then pliOkLoop t (wrap64 (n * 10 + ((c.toNat : Int) - 48))) true
    else (n, f)

/-- Model of drupalupdate.go's `parseLeadingInt`: `(value, ok)`. -/
def parseLeadingIntOk (s : List Char) : Int × Bool := pliOkLoop s 0 false

/-- Fuel-driven digit renderer (the fuel `n + 1` always suffices since the
value shrinks by a factor of ten each step). -/
def natDigitsF : Nat → Nat → List Char
  | 0, _ => []
  | f + 1, n =>
    if n < 10 then [Char.ofNat (48 + n)]
    else natDigitsF f (n / 10) ++ [Char.ofNat (48 + n % 10)]

/-- Decimal digits of a natural number, used to model `strconv.Itoa`. -/
def natDigits (n : Nat) : List Char := natDigitsF (n + 1) n

/-- Model of `strconv.Itoa`. -/
def itoa (n : Int) : List Char :=
  if n < 0 then '-' :: natDigits n.natAbs else natDigits n.toNat

/-- The `Version` struct shared by version.go and unnamed/part_003:
parsed segments of a version string.  `pfx` is the `Prefix` field,
`major`/`minor`/`patch` use `-1` as the missing-segment sentinel. -/
structure Version where
  pfx : List Char
  stability : List Char
  major : Int
  minor : Int
  patch : Int
deriving DecidableEq, Repr

/-- Shared tail of both `ParseVersion` implementations: split the numeric
rest on `.` into at most `limitN` segments and fill major/minor/patch. -/
def versionFromRest (limitN : Nat) (pfx stab rest : List Char) : Version :=
  let parts := splitNOn '.' limitN rest
  { pfx := pfx
    stability := stab
    major := if parts.length ≥ 1 then parseLeadingIntS (parts.getD 0 []) else -1
    minor := if parts.length ≥ 2 then parseLeadingIntS (parts.getD 1 []) else -1
    patch := if parts.length ≥ 3 then parseLeadingIntS (parts.getD 2 []) else -1 }

/-- Model of `ParseVersion` from version.go (the string-splitting revision):
strip an optional `8.x-` marker, cut the string at the first case-insensitive
`-rc` / `-beta` / `-alpha` marker, then split on `.` (at most 4 chunks). -/
def ParseVersionS (s : List Char) : Version :=
  let hasP := (chars "8.x-").isPrefixOf s
  let pfx := if hasP then chars "8.x" else []
  let rest := if hasP then s.drop 4 else s
  let lower := lowStr rest
  match goIndex lower (chars "-rc") with
  | some i => versionFromRest 4 pfx (chars "RC") (rest.take i)
  | none =>
    match goIndex lower (chars "-beta") with
    | some i => versionFromRest 4 pfx (chars "beta") (rest.take i)
    | none =>
      match goIndex lower (chars "-alpha") with
      | some i => versionFromRest 4 pfx (chars "alpha") (rest.take i)
      | none => versionFromRest 4 pfx [] rest

/-- The remainder string whose first `.`-segment version.go's
`ParseVersion` reads the major from: the input after stripping the
optional `8.x-` marker and truncating at the first case-insensitive
`-rc` / `-beta` / `-alpha` marker (the same computation `ParseVersionS`
performs before splitting). -/
def restS (s : List Char) : List Char :=
  let hasP := (chars "8.x-").isPrefixOf s
  let rest := if hasP then s.drop 4 else s
  let lower := lowStr rest
  match goIndex lower (chars "-rc") with
  | some i => rest.take i
  | none =>
    match goIndex lower (chars "-beta") with
    | some i => rest.take i
    | none =>
      match goIndex lower (chars "-alpha") with
      | some i => rest.take i
      | none => rest

/-- `[aA-zZ]` of part_003's `versionRegex`: the union of `a`, the range
`A`–`z`, and `Z`, i.e. code points 65–122. -/
def inStabClass (c : Char) : Bool := decide (65 ≤ c.toNat) && decide (c.toNat ≤ 122)

/-- One `\.\d+` repetition of the regex: a dot followed by a maximal
non-empty digit run (a shorter run would leave a digit where the regex
next requires `.`, `-` or end of input, so the maximal run is forced). -/
def repOnce (s : List Char) : Option (List Char × List Char) :=
  match s with
  | '.' :: rest =>
    match List.span isDigit rest with
    | ([], _) => none
    | (d, r) => some ('.' :: d, r)
  | _ => none

/-- Match `(-([aA-zZ]+).*)?$` at the end of the input: either nothing is
left, or a `-` followed by at least one class character, where `.*` accepts
the remaining characters provided none is a newline (Go's `.` does not match
`\n`).  Returns `(group 6, group 7)`. -/
def reTail (t : List Char) : Option (List Char × List Char) :=
  match t with
  | [] => some ([], [])
  | '-' :: c :: cs =>
    if inStabClass c then
      match List.span inStabClass (c :: cs) with
      | (letters, rest) =>
        if rest.all (fun x => decide (¬ (x = '\n'))) then
          some ('-' :: c :: cs, letters)
        else none
    else none
  | _ => none

/-- Match `((\d+)(\.\d+){0,2})` then the tail, with the regex's greedy
backtracking over the number of repetitions (2, then 1, then 0).
Returns `(group 3, group 4, group 5, group 6, group 7)`;
group 5 is the last repetition taken (empty when none). -/
def reBody (s : List Char) : Option (List Char × List Char × List Char × List Char × List Char) :=
  match List.span isDigit s with
  | ([], _) => none
  | (d, r0) =>
    let finish := fun (num g5 : List Char) (rest : List Char) =>
      (reTail rest).map (fun g67 => (num, d, g5, g67.1, g67.2))
    match repOnce r0 with
    | none => finish d [] r0
    | some (p1, r1) =>
      match repOnce r1 with
      | none =>
        match finish (d ++ p1) p1 r1 with
        | some m => some m
        | none => finish d [] r0
      | some (p2, r2) =>
        match finish (d ++ p1 ++ p2) p2 r2 with
        | some m => some m
        | none =>
          match finish (d ++ p1) p1 r1 with
          | some m => some m
          | none => finish d [] r0

/-- Assemble the 8-entry submatch slice `[g0,...,g7]` from the full input,
the two groups of the optional marker, and the body/tail groups. -/
def pack8 (s g1 g2 : List Char)
    (b : List Char × List Char × List Char × List Char × List Char) :
    List (List Char) :=
  [s, g1, g2, b.1, b.2.1, b.2.2.1, b.2.2.2.1, b.2.2.2.2]

/-- The 8 submatches `[g0,...,g7]` of part_003's
`^((\d+\.x)-)?((\d+)(\.\d+){0,2})(-([aA-zZ]+).*)?$` on `s`, or `none` when
the regex does not match.  The optional leading group is greedy: a parse
with the `(\d+\.x)-` marker is preferred, falling back to none on failure.
Models `versionRegex.FindAllStringSubmatch(s, 1)`. -/
def reSubs (s : List Char) : Option (List (List Char)) :=
  let withP : Option (List (List Char)) :=
    match List.span isDigit s with
    | ([], _) => none
    | (d, r) =>
      match r with
      | '.' :: 'x' :: '-' :: rest =>
        (reBody rest).map (pack8 s (d ++ chars ".x-") (d ++ chars ".x"))
      | _ => none
  match withP with
  | some m => some m
  | none => (reBody s).map (pack8 s [] [])

/-- Model of `parseStability` from part_003: canonical-case the marker via
`strings.EqualFold` against `RC`, `beta`, `alpha`. -/
def parseStability (s : List Char) : List Char :=
  if eqFold s (chars "RC") then chars "RC"
  else if eqFold s (chars "beta") then chars "beta"
  else if eqFold s (chars "alpha") then chars "alpha"
  else []

/-- Model of `ParseVersion` from unnamed/part_003 (the regex revision).
`none` models the `panic("never reached: match must have length 8")`
branch, taken when the submatch slice does not have exactly 8 entries. -/
def ParseVersionR (s : List Char) : Option Version :=
  match reSubs s with
  | none => some { pfx := [], stability := [], major := -1, minor := -1, patch := -1 }
  | some m =>
    if m.length = 8 then
      let g3 := m.getD 3 []
      some { versionFromRest 3 (m.getD 2 []) (parseStability (m.getD 7 [])) g3 with
             pfx := m.getD 2 [] }
    else none

/-- Model of the `Version.VersionPin` method (identical in version.go and
part_003): `^major` or `^major.minor`, dropping patch, then `@Stability`. -/
def Version.VersionPin (v : Version) : List Char :=
  ('^' :: (if v.minor ≥ 0 then itoa v.major ++ '.' :: itoa v.minor else itoa v.major))
    ++ (if v.stability = [] then [] else '@' :: v.stability)

/-- Model of `seg` (shared): missing segment `-1` compares as 0. -/
def seg (n : Int) : Int := if n < 0 then 0 else n

/-- Model of the `Version.Compare` method (identical in both revisions). -/
def Version.Compare (v o : Version) : Int :=
  if seg v.major ≠ seg o.major then seg v.major - seg o.major
  else if seg v.minor ≠ seg o.minor then seg v.minor - seg o.minor
  else seg v.patch - seg o.patch

/-- A release from drupal.org or Packagist (the `Release` struct). -/
structure Release where
  name : List Char
  version : List Char
  versionPin : List Char
  status : List Char
  coreCompat : List Char
deriving DecidableEq, Repr

/-- Model of the standalone `VersionPin` function of drupalupdate.go:
derives the composer constraint directly from the raw string, keeping the
major/minor segment text as-is. -/
def VersionPinStr (version : List Char) : List Char :=
  let v0 := trimPfx (chars "8.x-") version
  let lower := lowStr v0
  let cut : List Char × List Char :=
    match goIndex lower (chars "-rc") with
    | some i => (v0.take i, chars "@RC")
    | none =>
      match goIndex lower (chars "-beta") with
      | some i => (v0.take i, chars "@beta")
      | none =>
        match goIndex lower (chars "-alpha") with
        | some i => (v0.take i, chars "@alpha")
        | none => (v0, [])
  let parts := splitNOn '.' 3 cut.1
  if parts.length ≥ 2 then
    '^' :: (parts.getD 0 []) ++ '.' :: (parts.getD 1 []) ++ cut.2
  else '^' :: cut.1 ++ cut.2

/-- A version entry of the Packagist p2 response. -/
structure PackagistVersion where
  version : List Char
  versionNormalized : List Char
deriving DecidableEq, Repr

/-- Model of `IsStableVersion`: stable iff the lowered raw version contains
none of `dev`, `alpha`, `beta`, `rc` anywhere. -/
def IsStableVersion (v : PackagistVersion) : Bool :=
  let lower := lowStr v.version
  !(goContains lower (chars "dev") || goContains lower (chars "alpha") ||
    goContains lower (chars "beta") || goContains lower (chars "rc"))

/-- Model of `MajorVersion`: first dot-separated segment of the normalized
version string. -/
def MajorVersion (versionNormalized : List Char) : List Char :=
  (splitNOn '.' 2 versionNormalized).getD 0 []

/-- The release built by `LatestStablePerMajor` for one retained entry. -/
def packagistRelease (packageName : List Char) (v : PackagistVersion) : Release :=
  let version := trimPfx (chars "v") v.version
  { name := packageName ++ ' ' :: version
    version := version
    versionPin := VersionPinStr version
    status := []
    coreCompat := [] }

/-- Loop of `LatestStablePerMajor` with the `seen` map modelled as the list
of major tokens already taken (Go only ever stores `true`). -/
def lspmLoop (packageName : List Char) (seen : List (List Char)) :
    List PackagistVersion → List Release
  | [] => []
  | v :: vs =>
    if !(IsStableVersion v) then lspmLoop packageName seen vs
    else
      let major := MajorVersion v.versionNormalized
      if major ∈ seen then lspmLoop packageName seen vs
      else packagistRelease packageName v :: lspmLoop packageName (major :: seen) vs

/-- Model of `LatestStablePerMajor` from drupalupdate.go. -/
def LatestStablePerMajor (packageName : List Char) (versions : List PackagistVersion) :
    List Release :=
  lspmLoop packageName [] versions

/-- Claim-side pipeline for C3, written from the spec's words: first drop
every unstable entry, then keep the first remaining entry per distinct
major token, then build the releases. -/
def dedupeFirstByMajor (seen : List (List Char)) : List PackagistVersion → List PackagistVersion
  | [] => []
  | v :: vs =>
    let major := MajorVersion v.versionNormalized
    if major ∈ seen then dedupeFirstByMajor seen vs
    else v :: dedupeFirstByMajor (major :: seen) vs

/-- Claim-side description of major-line selection (C3). -/
def latestStableClaim (packageName : List Char) (versions : List PackagistVersion) :
    List Release :=
  (dedupeFirstByMajor [] (versions.filter IsStableVersion)).map (packagistRelease packageName)

/-- Segment comparison step of `compareVersionStrings`: numeric when both
segments have a leading integer, string comparison otherwise; the result 0
means the loop continues with the next segment.  The Go subtraction of two
wrapped `int`s wraps again. -/
def segCmp (sa sb : List Char) : Int :=
  let a := parseLeadingIntOk sa
  let b := parseLeadingIntOk sb
  if a.2 && b.2 then wrap64 (a.1 - b.1)
  else if sa = sb then 0
  else if charsLt sa sb then -1 else 1

/-- Tail of the segment loop of `compareVersionStrings` once the first list
is exhausted: remaining segments of the longer list compare against `""`. -/
def cmpSegsR : List (List Char) → Int
  | [] => 0
  | b :: bs => if segCmp [] b ≠ 0 then segCmp [] b else cmpSegsR bs

/-- Segment loop of `compareVersionStrings`, with missing segments of the
shorter list read as `""` (Go pads with the zero value). -/
def cmpSegs : List (List Char) → List (List Char) → Int
  | [], bs => cmpSegsR bs
  | a :: as_, [] => if segCmp a [] ≠ 0 then segCmp a [] else cmpSegs as_ []
  | a :: as_, b :: bs => if segCmp a b ≠ 0 then segCmp a b else cmpSegs as_ bs

/-- Model of `compareVersionStrings` from drupalupdate.go. -/
def compareVersionStrings (a b : List Char) : Int :=
  cmpSegs (splitAll '.' (trimPfx (chars "8.x-") a)) (splitAll '.' (trimPfx (chars "8.x-") b))

/-- Insert for the comparison-sort model of Go's slice sorts. -/
def insertBy (lt : α → α → Bool) (x : α) : List α → List α
  | [] => [x]
  | y :: ys => if lt x y then x :: y :: ys else y :: insertBy lt x ys

/-- Comparison sort (insertion sort) modelling `sort.Slice` /
`slices.SortFunc`: some permutation ordered by the given strict `lt`. -/
def sortBy (lt : α → α → Bool) : List α → List α
  | [] => []
  | x :: xs => insertBy lt x (sortBy lt xs)

/-- Model of `SortReleasesDescending` from drupalupdate.go: sorts by
`compareVersionStrings`, larger first. -/
def SortReleasesDescending (releases : List Release) : List Release :=
  sortBy (fun a b => decide (compareVersionStrings a.version b.version > 0)) releases

/-- Model of `sortReleases` from composer_test.go (the revision that parses
each version and sorts with `Version.Compare`, descending). -/
def sortReleasesT (releases : List Release) : List Release :=
  sortBy (fun a b =>
    decide ((ParseVersionS b.version).Compare (ParseVersionS a.version) < 0)) releases

/-- Keep an already-recorded release, otherwise record `r` (the
`if _, exists := found[branch]; !exists` update). -/
def orTake (o : Option Release) (r : Release) : Option Release :=
  if o.isSome then o else some r

/-- Update of the `found` map (`map[string]Release`): record `r` for branch
`b` only if no release was recorded for `b` yet. -/
def foundUpd (f : List Char → Option Release) (b : List Char) (r : Release) :
    List Char → Option Release :=
  fun x => if x = b then orTake (f b) r else f x

/-- Inner branch loop of drupalupdate.go's `LatestPerBranch`: the release is
credited to the first declared branch that prefixes its version, then the
loop breaks. -/
def lpbInner (f : List Char → Option Release) (r : Release) :
    List (List Char) → (List Char → Option Release)
  | [] => f
  | b :: bs => if b.isPrefixOf r.version then foundUpd f b r else lpbInner f r bs

/-- Release loop of drupalupdate.go's `LatestPerBranch`. -/
def lpbLoop (bs : List (List Char)) :
    List Release → (List Char → Option Release) → (List Char → Option Release)
  | [], f => f
  | r :: rs, f =>
    if r.status = chars "published" then lpbLoop bs rs (lpbInner f r bs)
    else lpbLoop bs rs f

/-- Fallback of drupalupdate.go's `LatestPerBranch` when no branches are
declared: published releases, capped at 10 (`k` = number taken so far). -/
def takePub10 : List Release → Nat → List Release
  | [], _ => []
  | r :: rs, k =>
    if r.status = chars "published" then
      if k + 1 ≥ 10 then [r] else r :: takePub10 rs (k + 1)
    else takePub10 rs k

/-- Model of `LatestPerBranch` from drupalupdate.go. -/
def LatestPerBranch (releases : List Release) (supportedBranches : List (List Char)) :
    List Release :=
  if supportedBranches = [] then takePub10 releases 0
  else supportedBranches.filterMap (lpbLoop supportedBranches releases (fun _ => none))

/-- Inner branch loop of composer_test.go's `latestPerBranch` (the revision
without the break: every declared branch that prefixes the version is
considered). -/
def lpbInnerT (r : Release) : List (List Char) → (List Char → Option Release) →
    (List Char → Option Release)
  | [], f => f
  | b :: bs, f => lpbInnerT r bs (if b.isPrefixOf r.version then foundUpd f b r else f)

/-- Release loop of composer_test.go's `latestPerBranch`. -/
def lpbLoopT (bs : List (List Char)) :
    List Release → (List Char → Option Release) → (List Char → Option Release)
  | [], f => f
  | r :: rs, f =>
    if r.status = chars "published" then lpbLoopT bs rs (lpbInnerT r bs f)
    else lpbLoopT bs rs f

/-- Model of `latestPerBranch` from composer_test.go (no break, uncapped
fallback). -/
def latestPerBranchT (releases : List Release) (supportedBranches : List (List Char)) :
    List Release :=
  if supportedBranches = [] then
    releases.filter (fun r => decide (r.status = chars "published"))
  else supportedBranches.filterMap (lpbLoopT supportedBranches releases (fun _ => none))

/-- Claim-side description of branch selection (C2): for each declared
branch, the first release in catalog order that is published and whose raw
version starts with the branch; branches without a match contribute
nothing. -/
def firstPubMatch (releases : List Release) (b : List Char) : Option Release :=
  releases.find? (fun r => decide (r.status = chars "published") && b.isPrefixOf r.version)

/-- Claim-side branch-selection output (C2). -/
def branchClaim (releases : List Release) (bs : List (List Char)) : List Release :=
  bs.filterMap (firstPubMatch releases)

/-- `[a-z0-9]` of `packageNameRegex`. -/
def isAlnumLower (c : Char) : Bool :=
  (decide ('a' ≤ c) && decide (c ≤ 'z')) || isDigit c

/-- `[_.-]` of `packageNameRegex`. -/
def isNameSep (c : Char) : Bool :=
  decide (c = '_') || decide (c = '.') || decide (c = '-')

/-- Scanner for the tail of one name part after its leading alphanumeric:
accepts the language of `([_.-]?[a-z0-9]+)*`, i.e. no two adjacent
separators and no trailing separator.  The flag records whether the
previous character was a separator. -/
def namePartLoop : List Char → Bool → Bool
  | [], afterSep => !afterSep
  | c :: t, afterSep =>
    if isAlnumLower c then namePartLoop t false
    else if isNameSep c then (if afterSep then false else namePartLoop t true)
    else false

/-- One side of a package name: the language of `[a-z0-9]([_.-]?[a-z0-9]+)*`. -/
def namePartOk (s : List Char) : Bool :=
  match s with
  | [] => false
  | c :: t => isAlnumLower c && namePartLoop t false

/-- Model of `checkPackageName` (true iff no error): the package name
matches `^[a-z0-9]([_.-]?[a-z0-9]+)*/[a-z0-9]([_.-]?[a-z0-9]+)*$`.  Since
`/` occurs in neither character class, a match is exactly one `/` with a
valid part on each side; the empty string has no `/` and is also rejected,
matching the explicit empty check. -/
def checkPackageNameOk (pkg : List Char) : Bool :=
  match splitAll '/' pkg with
  | [vendor, name] => namePartOk vendor && namePartOk name
  | _ => false

/-- Model of `drupalModuleName` from composer.go: the module slug of a
`drupal/`-scoped package, `none` otherwise. -/
def drupalModuleName (pkg : List Char) : Option (List Char) :=
  if (chars "drupal/").isPrefixOf pkg then some (pkg.drop 7) else none

/-- Model of `isCorePackage` from composer.go. -/
def isCorePackage (name : List Char) : Bool :=
  decide (name = chars "core") || (chars "core-").isPrefixOf name

/-- Model of `isSkippablePackage` from composer.go: invalid names, the
runtime and package-manager pseudo-packages, extension/library stubs, and
drupal core packages. -/
def isSkippablePackage (pkg : List Char) : Bool :=
  if !(checkPackageNameOk pkg) then true
  else if decide (pkg = chars "php") || decide (pkg = chars "composer")
      || (chars "ext-").isPrefixOf pkg || (chars "lib-").isPrefixOf pkg then true
  else
    match drupalModuleName pkg with
    | some name => isCorePackage name
    | none => false

/-- The `Package` struct. -/
structure Package where
  name : List Char
  module : List Char
  version : List Char
deriving DecidableEq, Repr

/-- Model of `ComposerJSON.filterPackages`: collect the entries accepted by
the filter, then sort ascending by full package name.  The Go `Require`
map's iteration order is arbitrary, so the model takes the entries as a
list in any order; `sort.Slice` is modelled as a comparison sort. -/
def filterPackages (require : List (List Char × List Char))
    (filter : List Char → List Char → Option (List Char)) : List Package :=
  sortBy (fun p q => charsLt p.name q.name)
    (require.filterMap (fun e => (filter e.1 e.2).map
      (fun m => { name := e.1, module := m, version := e.2 })))

/-- Model of `ComposerJSON.DrupalPackages`: drupal modules that are not
core packages. -/
def DrupalPackages (require : List (List Char × List Char)) : List Package :=
  filterPackages require (fun name _ =>
    match drupalModuleName name with
    | some m => if isCorePackage m then none else some m
    | none => none)

/-- Model of `ComposerJSON.CorePackages`: drupal core packages. -/
def CorePackages (require : List (List Char × List Char)) : List Package :=
  filterPackages require (fun name _ =>
    match drupalModuleName name with
    | some m => if isCorePackage m then some m else none
    | none => none)

/-- Model of `ComposerJSON.ComposerPackages`: non-drupal, non-skippable
packages, with the full name as the module key. -/
def ComposerPackages (require : List (List Char × List Char)) : List Package :=
  filterPackages require (fun name _ =>
    if isSkippablePackage name then none
    else match drupalModuleName name with
      | some _ => none
      | none => some name)

example : (ParseVersionS (chars "8.x-1.0-rc17")).VersionPin = chars "^1.0@RC" := by decide
example : (ParseVersionR (chars "8.x-1.0-rc17")).map Version.VersionPin = some (chars "^1.0@RC") := by decide
example : (ParseVersionS (chars "2.0.0-beta3")).VersionPin = chars "^2.0@beta" := by decide
example : (ParseVersionR (chars "42")).map Version.VersionPin = some (chars "^42") := by decide
example : (ParseVersionR (chars "1foo")).map Version.major = some (-1) := by decide
example : (ParseVersionS (chars "5.0.3")).VersionPin = chars "^5.0" := by decide
example : (ParseVersionS (chars "^5.0")).VersionPin = chars "^0.0" := by decide

/-- A published release whose name and raw version are the given string
(shape of the drupal.org catalog entries in the spec's scenarios). -/
def pubRel (v : String) : Release :=
  { name := chars v, version := chars v, versionPin := [], status := chars "published",
    coreCompat := [] }

/-- The release list of the spec's branch-selection scenario, in catalog
order. -/
def c2Releases : List Release :=
  [pubRel "5.0.3", pubRel "5.0.2", pubRel "4.0.1", pubRel "4.0.0", pubRel "3.0.5"]

/-- The declared branches of the spec's branch-selection scenario. -/
def c2Branches : List (List Char) := [chars "3.0.", chars "4.0.", chars "5.0."]

/-- Overlapping branch list used to probe the branch selectors: the second
branch extends the first. -/
def cexBranches : List (List Char) := [chars "1.", chars "1.2"]

/-- A Packagist version entry from raw and normalized strings. -/
def pv (v n : String) : PackagistVersion :=
  { version := chars v, versionNormalized := chars n }

/-- The newest-first Packagist list of the spec's major-line scenario. -/
def c3Versions : List PackagistVersion :=
  [pv "13.0.1" "13.0.1.0", pv "13.0.0" "13.0.0.0", pv "13.0.0-rc1" "13.0.0.0-RC1",
   pv "12.5.6" "12.5.6.0", pv "12.4.0" "12.4.0.0", pv "dev-main" "dev-main",
   pv "11.0.0" "11.0.0.0"]

/-- The dependency map of the spec's classification scenario. -/
def c6Require : List (List Char × List Char) :=
  [(chars "drupal/admin_toolbar", chars "^3.6"), (chars "drupal/core-recommended", chars "^11"),
   (chars "drush/drush", chars "^13"), (chars "php", chars ">=8.2")]

/-- `pin(parse(v))` for the string-splitting revision. -/
def pinParseS (s : List Char) : List Char := (ParseVersionS s).VersionPin

/-- `pin(parse(v))` for the regex revision.  The default version is never
used: `ParseVersionR` is total (claim C10). -/
def pinParseR (s : List Char) : List Char :=
  ((ParseVersionR s).getD { pfx := [], stability := [], major := -1, minor := -1, patch := -1 }).VersionPin

/-- First-some choice on options (`found` lookup falling back to the
remaining scan). -/
def orO (o p : Option Release) : Option Release :=
  match o with
  | some x => some x
  | none => p

/-- The digit accumulator of the Go loops over unbounded naturals. -/
def numAcc : List Char → Nat → Nat
  | [], acc => acc
  | c :: t, acc => if isDigit c then numAcc t (acc * 10 + (c.toNat - 48)) else acc

/-- Is the first character a digit (false for the empty string)? -/
def headDigit : List Char → Bool
  | [] => false
  | d :: _ => isDigit d

/-- Every `-` in the string is immediately followed by a digit (used to rule
out the `-rc`/`-beta`/`-alpha` markers in rendered pins). -/
def dashOk : List Char → Bool
  | [] => true
  | c :: t => (if c = '-' then headDigit t else true) && dashOk t

mutual
/-- JSON value with raw lexemes: strings and numbers keep their original
source text (escapes intact), objects keep their fields in source order.
This mirrors what `json.RawMessage` preserves of a value: `json.Marshal`
compacts a raw message (dropping inter-token whitespace, which this AST
does not store) but passes lexemes and field order through. -/
inductive JVal where
  | null : JVal
  | bool (b : Bool) : JVal
  | num (lex : List Char) : JVal
  | str (lex : List Char) : JVal
  | arr (elems : JElems) : JVal
  | obj (fields : JFields) : JVal
inductive JElems where
  | nil : JElems
  | cons (head : JVal) (tail : JElems) : JElems
inductive JFields where
  | nil : JFields
  | cons (key : List Char) (val : JVal) (tail : JFields) : JFields
end

/-- Fields of a JSON object as a list of (raw key lexeme, value). -/
def JFields.toList : JFields → List (List Char × JVal)
  | JFields.nil => []
  | JFields.cons k v fs => (k, v) :: JFields.toList fs

/-- Build a JSON object field sequence from a list. -/
def JFields.ofList : List (List Char × JVal) → JFields
  | [] => JFields.nil
  | e :: fs => JFields.cons e.1 e.2 (JFields.ofList fs)

/-- Hexadecimal digit test for `\uXXXX` escapes. -/
def isHexDigit (c : Char) : Bool :=
  isDigit c || (decide ('a' ≤ c) && decide (c ≤ 'f')) || (decide ('A' ≤ c) && decide (c ≤ 'F'))

/-- Scan a JSON string lexeme after the opening quote: returns the raw
lexeme (escapes kept) and the rest after the closing quote.  Unescaped
control characters and invalid escapes are rejected, as in Go. -/
def scanStrLex : List Char → Option (List Char × List Char)
  | [] => none
  | '"' :: t => some ([], t)
  | '\\' :: e :: t =>
    if e = 'u' then
      match t with
      | h1 :: h2 :: h3 :: h4 :: t3 =>
        if isHexDigit h1 && isHexDigit h2 && isHexDigit h3 && isHexDigit h4 then
          (scanStrLex t3).map (fun r => ('\\' :: 'u' :: h1 :: h2 :: h3 :: h4 :: r.1, r.2))
        else none
      | _ => none
    else if e = '"' || e = '\\' || e = '/' || e = 'b' || e = 'f' || e = 'n'
        || e = 'r' || e = 't' then
      (scanStrLex t).map (fun r => ('\\' :: e :: r.1, r.2))
    else none
  | c :: t =>
    if c.toNat < 32 then none
    else (scanStrLex t).map (fun r => (c :: r.1, r.2))

/-- Value of one hexadecimal digit. -/
def hexVal (c : Char) : Nat :=
  if isDigit c then c.toNat - 48
  else if decide ('a' ≤ c) && decide (c ≤ 'f') then c.toNat - 87
  else c.toNat - 55

/-- Interpretation of a single-character escape. -/
def escChar (e : Char) : Char :=
  if e = 'b' then '\x08' else if e = 'f' then '\x0c' else if e = 'n' then '\n'
  else if e = 'r' then '\r' else if e = 't' then '\t' else e

/-- Decode a raw string lexeme to its character content.  Note: Go combines
`\uXXXX` surrogate pairs and replaces lone surrogates with U+FFFD; this
model maps each `\uXXXX` to the code point directly (no claim involves
surrogates). -/
def decodeLex : List Char → List Char
  | [] => []
  | '\\' :: 'u' :: h1 :: h2 :: h3 :: h4 :: t =>
    Char.ofNat (((hexVal h1 * 16 + hexVal h2) * 16 + hexVal h3) * 16 + hexVal h4)
      :: decodeLex t
  | '\\' :: e :: t => escChar e :: decodeLex t
  | c :: t => c :: decodeLex t

/-- Scan the integer part of a JSON number (`0` or a non-zero-led run). -/
def scanInt : List Char → Option (List Char × List Char)
  | [] => none
  | '0' :: t => some (['0'], t)
  | c :: t =>
    if isDigit c then
      match List.span isDigit t with
      | (d, r) => some (c :: d, r)
    else none

/-- Scan the optional fraction part (`.` followed by digits). -/
def scanFrac (s : List Char) : Option (List Char × List Char) :=
  match s with
  | '.' :: t =>
    match List.span isDigit t with
    | ([], _) => none
    | (d, r) => some ('.' :: d, r)
  | _ => some ([], s)

/-- Scan the optional exponent part (`e`/`E`, optional sign, digits). -/
def scanExp (s : List Char) : Option (List Char × List Char) :=
  match s with
  | c :: t =>
    if c = 'e' || c = 'E' then
      match t with
      | sgn :: t2 =>
        if sgn = '+' || sgn = '-' then
          match List.span isDigit t2 with
          | ([], _) => none
          | (d, r) => some (c :: sgn :: d, r)
        else
          match List.span isDigit t with
          | ([], _) => none
          | (d, r) => some (c :: d, r)
      | [] => none
    else some ([], s)
  | [] => some ([], [])

/-- Scan a JSON number lexeme. -/
def scanNumLex (s : List Char) : Option (List Char × List Char) :=
  let body := fun (u : List Char) =>
    (scanInt u).bind (fun ir =>
      (scanFrac ir.2).bind (fun fr =>
        (scanExp fr.2).map (fun er => (ir.1 ++ fr.1 ++ er.1, er.2))))
  match s with
  | '-' :: t => (body t).map (fun r => ('-' :: r.1, r.2))
  | _ => body s

mutual
/-- JSON value parser (fuel-driven; the fuel `length + 1` always suffices
since every recursion step consumes at least one character).  Models the
grammar accepted by `encoding/json`: leading/trailing whitespace, the
literals, strings, numbers, arrays and objects. -/
def parseVal : Nat → List Char → Option (JVal × List Char)
  | 0, _ => none
  | f + 1, s =>
    match (s.dropWhile isSpace : List Char) with
    | 'n' :: 'u' :: 'l' :: 'l' :: t => some (JVal.null, t)
    | 't' :: 'r' :: 'u' :: 'e' :: t => some (JVal.bool true, t)
    | 'f' :: 'a' :: 'l' :: 's' :: 'e' :: t => some (JVal.bool false, t)
    | '"' :: t => (scanStrLex t).map (fun r => (JVal.str r.1, r.2))
    | '\x7b' :: t =>
      (match (t.dropWhile isSpace : List Char) with
       | '\x7d' :: r => some (JVal.obj JFields.nil, r)
       | t2 => (parseFieldList f t2).map (fun r => (JVal.obj r.1, r.2)))
    | '[' :: t =>
      (match (t.dropWhile isSpace : List Char) with
       | ']' :: r => some (JVal.arr JElems.nil, r)
       | t2 => (parseElemList f t2).map (fun r => (JVal.arr r.1, r.2)))
    | s2 => (scanNumLex s2).map (fun r => (JVal.num r.1, r.2))
/-- Parse the fields of a non-empty JSON object, positioned at a key. -/
def parseFieldList : Nat → List Char → Option (JFields × List Char)
  | 0, _ => none
  | f + 1, s =>
    match s with
    | '"' :: t =>
      (scanStrLex t).bind (fun kr =>
        match (kr.2.dropWhile isSpace : List Char) with
        | ':' :: r2 =>
          (parseVal f r2).bind (fun vr =>
            match (vr.2.dropWhile isSpace : List Char) with
            | ',' :: r4 => (parseFieldList f (r4.dropWhile isSpace)).map
                (fun fr => (JFields.cons kr.1 vr.1 fr.1, fr.2))
            | '\x7d' :: r4 => some (JFields.cons kr.1 vr.1 JFields.nil, r4)
            | _ => none)
        | _ => none)
    | _ => none
/-- Parse the elements of a non-empty JSON array. -/
def parseElemList : Nat → List Char → Option (JElems × List Char)
  | 0, _ => none
  | f + 1, s =>
    (parseVal f s).bind (fun vr =>
      match (vr.2.dropWhile isSpace : List Char) with
      | ',' :: r2 => (parseElemList f r2).map (fun er => (JElems.cons vr.1 er.1, er.2))
      | ']' :: r2 => some (JElems.cons vr.1 JElems.nil, r2)
      | _ => none)
end

/-- Parse a complete JSON document (trailing non-whitespace rejects, as
`json.Unmarshal` does). -/
def parseJSON (s : List Char) : Option JVal :=
  (parseVal (s.length + 1) s).bind
    (fun r => if r.2.dropWhile isSpace = [] then some r.1 else none)

/-- Association-list lookup, modelling Go map indexing (keys compared as
strings). -/
def lookupA {α : Type} (m : List (List Char × α)) (k : List Char) : Option α :=
  (m.find? (fun e => decide (e.1 = k))).map (fun e => e.2)

/-- Association-list update, modelling Go map assignment: replaces the
value of an existing key in place, otherwise appends the entry. -/
def upsertA {α : Type} : List (List Char × α) → List Char → α → List (List Char × α)
  | [], k, v => [(k, v)]
  | e :: m, k, v => if e.1 = k then (k, v) :: m else e :: upsertA m k v

/-- The association list built by decoding a JSON object into a Go map:
fields processed in source order, later duplicates overwriting earlier
ones. -/
def mapOfFields (fs : List (List Char × JVal)) : List (List Char × JVal) :=
  fs.foldl (fun m e => upsertA m e.1 e.2) []

/-- Decoding a JSON object into `map[string]string` (the `require` field):
every value must be a string (decoded) or `null` (left as the zero value
`""`); any other value is an error.  Keys and values are unescaped. -/
def requireOfFields (fs : List (List Char × JVal)) : Option (List (List Char × List Char)) :=
  fs.foldlM (fun m e =>
    match e.2 with
    | JVal.str lex => some (upsertA m (decodeLex e.1) (decodeLex lex))
    | JVal.null => some (upsertA m (decodeLex e.1) [])
    | _ => none) []

/-- Sort an association list by key in Go string order. -/
def sortByKey {α : Type} (m : List (List Char × α)) : List (List Char × α) :=
  sortBy (fun a b => charsLt a.1 b.1) m

/-- `ComposerJSON` of composer.go: the decoded `require` map (`none` when
the field was absent or JSON `null`, i.e. the Go nil map) and the raw
field map holding every top-level field as its original `json.RawMessage`
value (here: the parsed value with lexemes preserved, which is what a raw
message retains up to inter-token whitespace — `json.Marshal` compacts
raw messages before output, so that whitespace never reaches the
round-tripped bytes). -/
structure ComposerJSON where
  require : Option (List (List Char × List Char))
  raw : List (List Char × JVal)

/-- The raw field map obtained by decoding a JSON object into
`map[string]json.RawMessage`: keys unescaped, later duplicates winning. -/
def rawOfFields (fs : JFields) : List (List Char × JVal) :=
  mapOfFields ((JFields.toList fs).map (fun e => (decodeLex e.1, e.2)))

/-- `ComposerJSON.UnmarshalJSON` of composer.go: decode the document into
the raw field map (the document must be an object, or `null` giving the
empty map), then decode the `require` field, if present, as
`map[string]string`.  An absent or `null` `require` leaves the map nil
(`none`). -/
def unmarshalComposerJSON (data : List Char) : Option ComposerJSON :=
  match parseJSON data with
  | some (JVal.obj fs) =>
    (match lookupA (rawOfFields fs) (chars "require") with
     | none => some { require := none, raw := rawOfFields fs }
     | some JVal.null => some { require := none, raw := rawOfFields fs }
     | some (JVal.obj rf) =>
       (requireOfFields (JFields.toList rf)).map
         (fun m => { require := some m, raw := rawOfFields fs })
     | some _ => none)
  | some JVal.null => some { require := none, raw := [] }
  | _ => none

/-- Lowercase hexadecimal digit, as Go's encoder emits. -/
def hexDigitCh (n : Nat) : Char :=
  if n < 10 then Char.ofNat (48 + n) else Char.ofNat (87 + n)

/-- A `\uXXXX` escape sequence for a code point below 2^16. -/
def uEsc (n : Nat) : List Char :=
  '\\' :: 'u' :: hexDigitCh (n / 4096 % 16) :: hexDigitCh (n / 256 % 16)
    :: hexDigitCh (n / 16 % 16) :: [hexDigitCh (n % 16)]

/-- One character of Go's canonical JSON string encoding (the
`escapeHTML = true` encoder used by `json.Marshal`). -/
def goEscCh (c : Char) : List Char :=
  if c = '"' then ['\\', '"']
  else if c = '\\' then ['\\', '\\']
  else if c = '\n' then ['\\', 'n']
  else if c = '\r' then ['\\', 'r']
  else if c = '\t' then ['\\', 't']
  else if c.toNat < 32 || c = '<' || c = '>' || c = '&'
      || c.toNat = 8232 || c.toNat = 8233 then uEsc c.toNat
  else [c]

/-- Canonical Go encoding of a decoded string, quotes included. -/
def goEncStr (s : List Char) : List Char := '"' :: s.flatMap goEscCh ++ ['"']

/-- `json.Marshal` of a `map[string]string`: an object with the keys in
sorted order, keys and values canonically encoded. -/
def requireJVal (m : List (List Char × List Char)) : JVal :=
  JVal.obj (JFields.ofList
    ((sortByKey m).map (fun e => (e.1.flatMap goEscCh, JVal.str (e.2.flatMap goEscCh)))))

/-- The top-level field map encoded by `ComposerJSON.MarshalJSON` of
composer.go: the raw map with `require` replaced by the re-marshalled
dependency map when it is non-nil, and deleted when it is nil; `MarshalIndent`
emits the fields sorted by key. -/
def marshalFields (c : ComposerJSON) : List (List Char × JVal) :=
  sortByKey (match c.require with
    | some m => upsertA c.raw (chars "require") (requireJVal m)
    | none => c.raw.filter (fun e => !(decide (e.1 = chars "require"))))

/-- HTML escaping applied by the encoder when compacting a
`json.RawMessage`: `<`, `>`, `&`, U+2028 and U+2029 inside string lexemes
become `\uXXXX`; everything else (including existing escapes) passes
through. -/
def htmlEscCh (c : Char) : List Char :=
  if c = '<' || c = '>' || c = '&' || c.toNat = 8232 || c.toNat = 8233 then
    uEsc c.toNat
  else [c]

/-- HTML-escape a raw string lexeme. -/
def htmlEsc (s : List Char) : List Char := s.flatMap htmlEscCh

/-- Newline plus `MarshalIndent`'s four-space indentation at depth `d`. -/
def nlIndent (d : Nat) : List Char := '\n' :: List.replicate (4 * d) ' '

mutual
/-- Render one value the way `json.MarshalIndent(·, "", "    ")` lays out
the compacted raw message at nesting depth `d`: numbers keep their
lexemes, string lexemes are HTML-escaped, arrays and objects re-indent. -/
def renderVal : Nat → JVal → List Char
  | _, JVal.null => chars "null"
  | _, JVal.bool true => chars "true"
  | _, JVal.bool false => chars "false"
  | _, JVal.num lex => lex
  | _, JVal.str lex => '"' :: htmlEsc lex ++ ['"']
  | d, JVal.arr es =>
    (match es with
     | JElems.nil => chars "[]"
     | _ => '[' :: renderElems (d + 1) es ++ (nlIndent d ++ [']']))
  | d, JVal.obj fs =>
    (match fs with
     | JFields.nil => chars "\x7b\x7d"
     | _ => '\x7b' :: renderFields (d + 1) fs ++ (nlIndent d ++ ['\x7d']))
/-- Render the elements of a non-empty array, one per indented line. -/
def renderElems : Nat → JElems → List Char
  | _, JElems.nil => []
  | d, JElems.cons v JElems.nil => nlIndent d ++ renderVal d v
  | d, JElems.cons v es => nlIndent d ++ renderVal d v ++ ',' :: renderElems d es
/-- Render the fields of a non-empty object, one per indented line. -/
def renderFields : Nat → JFields → List Char
  | _, JFields.nil => []
  | d, JFields.cons k v JFields.nil =>
    nlIndent d ++ '"' :: htmlEsc k ++ '"' :: ':' :: ' ' :: renderVal d v
  | d, JFields.cons k v fs =>
    nlIndent d ++ '"' :: htmlEsc k ++ '"' :: ':' :: ' ' :: renderVal d v
      ++ ',' :: renderFields d fs
end

/-- Render the top-level field map, whose keys are decoded Go strings and
hence canonically re-encoded (nested keys stay raw lexemes). -/
def renderTopFields : List (List Char × JVal) → List Char
  | [] => []
  | [e] => nlIndent 1 ++ goEncStr e.1 ++ ':' :: ' ' :: renderVal 1 e.2
  | e :: fs =>
    nlIndent 1 ++ goEncStr e.1 ++ ':' :: ' ' :: renderVal 1 e.2 ++ ',' :: renderTopFields fs

/-- `json.MarshalIndent` of the top-level field map. -/
def renderTop (fs : List (List Char × JVal)) : List Char :=
  match fs with
  | [] => chars "\x7b\x7d"
  | _ => '\x7b' :: renderTopFields fs ++ ('\n' :: ['\x7d'])

/-- `ComposerJSON.MarshalJSON` of composer.go: indent-marshal the updated
field map and append a newline. -/
def marshalComposerJSON (c : ComposerJSON) : List Char :=
  renderTop (marshalFields c) ++ ['\n']

/-- `ComposerJSON` of drupalupdate.go (earlier revision): the decoded
`require` map and the verbatim original bytes kept in `Raw`. -/
structure ComposerJSONDU where
  require : Option (List (List Char × List Char))
  rawBytes : List Char

/-- `ParseComposerJSON` of drupalupdate.go: default struct decoding, so
the document must be an object (or `null`, which leaves the zero struct);
only the `require` field is read, exactly as in composer.go's decoder.
(With duplicate `require` fields Go would merge the maps entrywise; here
later fields overwrite earlier ones, which agrees whenever the field is
unique.)  The original bytes are stored for round-tripping. -/
def ParseComposerJSONDU (data : List Char) : Option ComposerJSONDU :=
  match parseJSON data with
  | some (JVal.obj fs) =>
    (match lookupA (rawOfFields fs) (chars "require") with
     | none => some { require := none, rawBytes := data }
     | some JVal.null => some { require := none, rawBytes := data }
     | some (JVal.obj rf) =>
       (requireOfFields (JFields.toList rf)).map
         (fun m => { require := some m, rawBytes := data })
     | some _ => none)
  | some JVal.null => some { require := none, rawBytes := data }
  | _ => none

/-- `sortedRequire` of drupalupdate.go: collect the keys, sort them, and
rebuild the map in that order.  The result is always a non-nil map — for
a nil input it is the empty (but present) map. -/
def sortedRequire (require : List (List Char × List Char)) : List (List Char × List Char) :=
  (sortBy charsLt (require.map Prod.fst)).filterMap
    (fun k => (lookupA require k).map (fun v => (k, v)))

/-- The top-level field map encoded by `MarshalComposerJSON` of
drupalupdate.go: the original bytes re-decoded into a generic map — so a
non-object document fails — with `require` set unconditionally to
`sortedRequire` of the dependency map (the empty object when the map is
nil).  Values of the other fields decode to `any` and re-encode through
Go's generic rules; those values are kept as parsed here, since no claim
depends on them, only on the key set and the `require` entry. -/
def duMarshalFields (c : ComposerJSONDU) : Option (List (List Char × JVal)) :=
  match parseJSON c.rawBytes with
  | some (JVal.obj fs) =>
    some (sortByKey (upsertA (rawOfFields fs) (chars "require")
      (requireJVal (sortedRequire (c.require.getD [])))))
  | _ => none

/-- A concrete manifest whose non-`require` field `"a"` is written with an
inner space: `[1, 2]`. -/
def c4Data : List Char :=
  chars "\x7b\n    \"a\": [1, 2],\n    \"require\": \x7b\n        \"z/z\": \"^1.0\",\n        \"a/a\": \"^2.0\"\n    \x7d\n\x7d\n"

/-- A concrete manifest with no `require` field. -/
def c9Data : List Char := chars "\x7b\"name\": \"x\"\x7d"

theorem chain_insertBy {α : Type} (lt : α → α → Bool) (R : α → α → Prop)
    (h1 : ∀ x y, lt x y = true → R x y) (h2 : ∀ x y, lt x y = false → R y x)
    (x : α) : ∀ l : List α, List.Chain' R l → List.Chain' R (insertBy lt x l) := by
  intro l
  induction l with
  | nil => intro; simp [insertBy]
  | cons y ys ih =>
    intro hc
    rw [List.chain'_cons'] at hc
    cases hlt : lt x y with
    | true =>
      simp only [insertBy, hlt, if_true]
      rw [List.chain'_cons]
      exact ⟨h1 x y hlt, List.chain'_cons'.mpr hc⟩
    | false =>
      simp only [insertBy, hlt, Bool.false_eq_true, if_false]
      rw [List.chain'_cons']
      refine ⟨?_, ih hc.2⟩
      intro z hz
      cases ys with
      | nil =>
        simp [insertBy] at hz
        subst hz
        exact h2 x y hlt
      | cons w ws =>
        cases hlt2 : lt x w with
        | true =>
          simp only [insertBy, hlt2, if_true, List.head?_cons, Option.mem_def,
            Option.some.injEq] at hz
          subst hz
          exact h2 x y hlt
        | false =>
          simp only [insertBy, hlt2, Bool.false_eq_true, if_false, List.head?_cons,
            Option.mem_def, Option.some.injEq] at hz
          subst hz
          exact hc.1 w (by simp)

theorem chain_sortBy {α : Type} (lt : α → α → Bool) (R : α → α → Prop)
    (h1 : ∀ x y, lt x y = true → R x y) (h2 : ∀ x y, lt x y = false → R y x) :
    ∀ l : List α, List.Chain' R (sortBy lt l) := by
  intro l
  induction l with
  | nil => simp [sortBy]
  | cons x xs ih => exact chain_insertBy lt R h1 h2 x _ ih

theorem insertBy_perm {α : Type} (lt : α → α → Bool) (x : α) :
    ∀ l : List α, (insertBy lt x l).Perm (x :: l) := by
  intro l
  induction l with
  | nil => simp [insertBy]
  | cons y ys ih =>
    cases hlt : lt x y with
    | true => simp [insertBy, hlt]
    | false =>
      simp only [insertBy, hlt, Bool.false_eq_true, if_false]
      exact (ih.cons y).trans (List.Perm.swap x y ys)

theorem sortBy_perm {α : Type} (lt : α → α → Bool) :
    ∀ l : List α, (sortBy lt l).Perm l := by
  intro l
  induction l with
  | nil => simp [sortBy]
  | cons x xs ih => exact (insertBy_perm lt x (sortBy lt xs)).trans (ih.cons x)

theorem compare_antisymm (v o : Version) : v.Compare o = -(o.Compare v) := by
  unfold Version.Compare
  split_ifs <;> omega

/-- C1: on the spec's literal pin table, both parser revisions produce the
listed canonical pin — `8.x-1.0-rc17 → ^1.0@RC`, `2.0.0-beta3 → ^2.0@beta`,
`1.0.0-alpha1 → ^1.0@alpha`, `3.16 → ^3.16`, `42 → ^42` — and therefore
agree with each other on each of the five inputs. -/
theorem claim_C1_pin_table :
    (ParseVersionS (chars "8.x-1.0-rc17")).VersionPin = chars "^1.0@RC"
    ∧ (ParseVersionR (chars "8.x-1.0-rc17")).map Version.VersionPin = some (chars "^1.0@RC")
    ∧ (ParseVersionS (chars "2.0.0-beta3")).VersionPin = chars "^2.0@beta"
    ∧ (ParseVersionR (chars "2.0.0-beta3")).map Version.VersionPin = some (chars "^2.0@beta")
    ∧ (ParseVersionS (chars "1.0.0-alpha1")).VersionPin = chars "^1.0@alpha"
    ∧ (ParseVersionR (chars "1.0.0-alpha1")).map Version.VersionPin = some (chars "^1.0@alpha")
    ∧ (ParseVersionS (chars "3.16")).VersionPin = chars "^3.16"
    ∧ (ParseVersionR (chars "3.16")).map Version.VersionPin = some (chars "^3.16")
    ∧ (ParseVersionS (chars "42")).VersionPin = chars "^42"
    ∧ (ParseVersionR (chars "42")).map Version.VersionPin = some (chars "^42") := by
  decide

theorem lspm_filter (name : List Char) :
    ∀ (vs : List PackagistVersion) (seen : List (List Char)),
      lspmLoop name seen vs =
        (dedupeFirstByMajor seen (vs.filter IsStableVersion)).map (packagistRelease name) := by
  intro vs
  induction vs with
  | nil => intro seen; simp [lspmLoop, dedupeFirstByMajor]
  | cons v vs ih =>
    intro seen
    by_cases hst : IsStableVersion v
    · by_cases hm : MajorVersion v.versionNormalized ∈ seen
      · simp [lspmLoop, dedupeFirstByMajor, hst, hm, ih]
      · simp [lspmLoop, dedupeFirstByMajor, hst, hm, ih]
    · simp [lspmLoop, dedupeFirstByMajor, hst, ih]

/-- C3: major-line selection equals the claim's pipeline — drop every raw
version containing `dev`/`alpha`/`beta`/`rc` (case-insensitively), keep the
first remaining entry per distinct major token of the normalized version,
strip a leading `v` — and on the spec's scenario the outputs are
`13.0.1, 12.5.6, 11.0.0` with pins `^13.0, ^12.5, ^11.0`. -/
theorem claim_C3_major_lines :
    (∀ (name : List Char) (vs : List PackagistVersion),
      LatestStablePerMajor name vs = latestStableClaim name vs)
    ∧ (LatestStablePerMajor (chars "pkg") c3Versions).map Release.version =
        [chars "13.0.1", chars "12.5.6", chars "11.0.0"]
    ∧ (LatestStablePerMajor (chars "pkg") c3Versions).map Release.versionPin =
        [chars "^13.0", chars "^12.5", chars "^11.0"] := by
  refine ⟨?_, by decide, by decide⟩
  intro name vs
  exact lspm_filter name vs []

/-- C5: the claim fails for `SortReleasesDescending` (drupalupdate.go),
which sorts by the segmentwise string comparator: sorted output can violate
the §4.1 parsed-version order.  It holds for `sortReleases`
(composer_test.go), which compares parsed versions: its output is always
descending under `Version.Compare` (shown here together with the fact that
it is a permutation of its input). -/
theorem claim_C5_sorted_descending :
    (∀ rs : List Release,
      (sortReleasesT rs).Perm rs
      ∧ List.Chain' (fun a b =>
          (ParseVersionS a.version).Compare (ParseVersionS b.version) ≥ 0) (sortReleasesT rs))
    ∧ (SortReleasesDescending [pubRel "2.5", pubRel "2.x1"]).map Release.version =
        [chars "2.x1", chars "2.5"] := by
  refine ⟨?_, by decide⟩
  intro rs
  constructor
  · exact sortBy_perm _ rs
  · apply chain_sortBy
    · intro x y h
      rw [decide_eq_true_iff] at h
      have := compare_antisymm (ParseVersionS x.version) (ParseVersionS y.version)
      omega
    · intro x y h
      rw [decide_eq_false_iff_not] at h
      omega

/-- C5 counterexample: a concrete release list where the returned list (via
the string-segment comparator of drupalupdate.go) has an adjacent pair in
strictly increasing §4.1 order, refuting the claim as stated. -/
theorem claim_C5_cex :
    (SortReleasesDescending [pubRel "2.5", pubRel "2.x1"]).map Release.version =
      [chars "2.x1", chars "2.5"]
    ∧ (ParseVersionS (chars "2.x1")).Compare (ParseVersionS (chars "2.5")) < 0 := by
  decide

theorem reSubs_length : ∀ s m, reSubs s = some m → m.length = 8 := by
  intro s m h
  unfold reSubs at h
  dsimp only at h
  split at h
  · rename_i heq
    split at heq
    · exact absurd heq (by simp)
    · split at heq
      · rw [Option.map_eq_some'] at heq
        obtain ⟨b, _, hb⟩ := heq
        cases h
        simp [← hb, pack8]
      · exact absurd heq (by simp)
  · rw [Option.map_eq_some'] at h
    obtain ⟨b, _, hb⟩ := h
    simp [← hb, pack8]

/-- C10: the regex-based `ParseVersion` is total — the panic branch guarded
by the submatch-length check is unreachable because every successful match
of the version regex yields a submatch slice of exactly 8 entries. -/
theorem claim_C10_no_panic :
    ∀ s : List Char, (ParseVersionR s).isSome ∧ (∀ m, reSubs s = some m → m.length = 8) := by
  intro s
  refine ⟨?_, reSubs_length s⟩
  unfold ParseVersionR
  split
  · rfl
  · rename_i m hm
    rw [reSubs_length s m hm]
    rfl

/-- C10 witness: a concrete successful match with its 8 submatches. -/
theorem claim_C10_witness :
    (ParseVersionR (chars "1.2.3")).isSome
    ∧ ([chars "1.2.3", [], [], chars "1.2.3", chars "1", chars ".3", [], []] :
        List (List Char)).length = 8 := by
  refine ⟨(claim_C10_no_panic (chars "1.2.3")).1, ?_⟩
  exact (claim_C10_no_panic (chars "1.2.3")).2 _ (by decide)

theorem orTake_orTake (o : Option Release) (r : Release) :
    orTake (orTake o r) r = orTake o r := by
  cases o <;> simp [orTake]

theorem filterMap_congr_mem {α β : Type} (l : List α) {f g : α → Option β}
    (h : ∀ a ∈ l, f a = g a) : l.filterMap f = l.filterMap g := by
  induction l with
  | nil => rfl
  | cons a l ih =>
    simp only [List.filterMap_cons, h a (by simp)]
    rw [ih (fun a ha => h a (by simp [ha]))]

theorem lpbInnerT_val (r : Release) :
    ∀ (bs : List (List Char)) (f : List Char → Option Release) (b : List Char),
      lpbInnerT r bs f b =
        if b ∈ bs ∧ b.isPrefixOf r.version = true then orTake (f b) r else f b := by
  intro bs
  induction bs with
  | nil => intro f b; simp [lpbInnerT]
  | cons b' bs' ih =>
    intro f b
    simp only [lpbInnerT]
    rw [ih]
    by_cases hb : b = b'
    · subst hb
      cases hpf : b.isPrefixOf r.version with
      | true =>
        simp only [hpf, if_true, foundUpd, if_pos rfl]
        by_cases hmem : b ∈ bs'
        · simp [hmem, orTake_orTake]
        · simp [hmem]
      | false => simp [hpf]
    · have hval : (if b'.isPrefixOf r.version = true then foundUpd f b' r else f) b = f b := by
        split
        · simp [foundUpd, hb]
        · rfl
      rw [hval]
      have hiff : (b ∈ b' :: bs' ∧ b.isPrefixOf r.version = true) ↔
          (b ∈ bs' ∧ b.isPrefixOf r.version = true) := by simp [hb]
      exact if_congr hiff.symm rfl rfl

theorem lpbInner_val (r : Release) :
    ∀ (bs : List (List Char)) (f : List Char → Option Release) (b : List Char),
      (∀ b1 ∈ bs, ∀ b2 ∈ bs, b1.isPrefixOf r.version = true →
        b2.isPrefixOf r.version = true → b1 = b2) →
      lpbInner f r bs b =
        if b ∈ bs ∧ b.isPrefixOf r.version = true then orTake (f b) r else f b := by
  intro bs
  induction bs with
  | nil => intro f b _; simp [lpbInner]
  | cons b' bs' ih =>
    intro f b huniq
    simp only [lpbInner]
    cases hpf' : b'.isPrefixOf r.version with
    | true =>
      simp only [if_true]
      by_cases hb : b = b'
      · subst hb
        simp [foundUpd, hpf']
      · have : ¬ (b ∈ b' :: bs' ∧ b.isPrefixOf r.version = true) := by
          rintro ⟨hmem, hpf⟩
          exact hb (huniq b hmem b' (by simp) hpf hpf')
        rw [if_neg this]
        simp [foundUpd, hb]
    | false =>
      simp only [Bool.false_eq_true, if_false]
      rw [ih f b (fun b1 h1 b2 h2 => huniq b1 (by simp [h1]) b2 (by simp [h2]))]
      by_cases hb : b = b'
      · subst hb
        simp [hpf']
      · have hiff : (b ∈ b' :: bs' ∧ b.isPrefixOf r.version = true) ↔
            (b ∈ bs' ∧ b.isPrefixOf r.version = true) := by simp [hb]
        exact if_congr hiff.symm rfl rfl

theorem orO_none_right (o : Option Release) : orO o none = o := by cases o <;> rfl

theorem lpbLoopT_val (bs : List (List Char)) :
    ∀ (rs : List Release) (f : List Char → Option Release) (b : List Char), b ∈ bs →
      lpbLoopT bs rs f b = orO (f b) (firstPubMatch rs b) := by
  intro rs
  induction rs with
  | nil =>
    intro f b _
    simp only [lpbLoopT, firstPubMatch, List.find?_nil]
    exact (orO_none_right (f b)).symm
  | cons r rs ih =>
    intro f b hmem
    simp only [lpbLoopT]
    by_cases hpub : r.status = chars "published"
    · rw [if_pos hpub, ih (lpbInnerT r bs f) b hmem, lpbInnerT_val r bs f b]
      simp only [hmem, true_and]
      have hfpm : firstPubMatch (r :: rs) b =
          if b.isPrefixOf r.version = true then some r else firstPubMatch rs b := by
        unfold firstPubMatch
        cases hpf : b.isPrefixOf r.version with
        | true =>
          rw [if_pos rfl, List.find?_cons_of_pos]
          simp [hpub, hpf]
        | false =>
          rw [if_neg (by simp), List.find?_cons_of_neg]
          simp [hpf]
      rw [hfpm]
      cases hpf : b.isPrefixOf r.version with
      | true =>
        simp only [if_pos rfl]
        cases hfb : f b <;> simp [orO, orTake]
      | false => simp
    · rw [if_neg hpub, ih f b hmem]
      have : firstPubMatch (r :: rs) b = firstPubMatch rs b := by
        unfold firstPubMatch
        rw [List.find?_cons_of_neg]
        simp [hpub]
      rw [this]

theorem lpbLoop_val (bs : List (List Char))
    (huniq : ∀ v : List Char, ∀ b1 ∈ bs, ∀ b2 ∈ bs,
      b1.isPrefixOf v = true → b2.isPrefixOf v = true → b1 = b2) :
    ∀ (rs : List Release) (f : List Char → Option Release) (b : List Char), b ∈ bs →
      lpbLoop bs rs f b = orO (f b) (firstPubMatch rs b) := by
  intro rs
  induction rs with
  | nil =>
    intro f b _
    simp only [lpbLoop, firstPubMatch, List.find?_nil]
    exact (orO_none_right (f b)).symm
  | cons r rs ih =>
    intro f b hmem
    simp only [lpbLoop]
    by_cases hpub : r.status = chars "published"
    · rw [if_pos hpub, ih (lpbInner f r bs) b hmem,
        lpbInner_val r bs f b (huniq r.version)]
      simp only [hmem, true_and]
      have hfpm : firstPubMatch (r :: rs) b =
          if b.isPrefixOf r.version = true then some r else firstPubMatch rs b := by
        unfold firstPubMatch
        cases hpf : b.isPrefixOf r.version with
        | true =>
          rw [if_pos rfl, List.find?_cons_of_pos]
          simp [hpub, hpf]
        | false =>
          rw [if_neg (by simp), List.find?_cons_of_neg]
          simp [hpf]
      rw [hfpm]
      cases hpf : b.isPrefixOf r.version with
      | true =>
        simp only [if_pos rfl]
        cases hfb : f b <;> simp [orO, orTake]
      | false => simp
    · rw [if_neg hpub, ih f b hmem]
      have : firstPubMatch (r :: rs) b = firstPubMatch rs b := by
        unfold firstPubMatch
        rw [List.find?_cons_of_neg]
        simp [hpub]
      rw [this]

/-- C2: for the no-break revision (composer_test.go `latestPerBranch`) the
claim holds for every input: the output lists, in declared-branch order,
the first published release whose version starts with each branch, and
omits branches without a published match.  For drupalupdate.go's
`LatestPerBranch`, which credits each release only to the first declared
branch that prefixes it, the same holds provided no declared branch is a
prefix of another (as in the spec's scenario, verified concretely). -/
theorem claim_C2_branch_selection :
    (∀ (rs : List Release) (bs : List (List Char)), bs ≠ [] →
      latestPerBranchT rs bs = branchClaim rs bs)
    ∧ (∀ (rs : List Release) (bs : List (List Char)), bs ≠ [] →
      (∀ b1 ∈ bs, ∀ b2 ∈ bs, b1 ≠ b2 → ¬ (b1.isPrefixOf b2 = true)) →
      LatestPerBranch rs bs = branchClaim rs bs)
    ∧ LatestPerBranch c2Releases c2Branches =
        [pubRel "3.0.5", pubRel "4.0.1", pubRel "5.0.3"]
    ∧ latestPerBranchT c2Releases c2Branches =
        [pubRel "3.0.5", pubRel "4.0.1", pubRel "5.0.3"]
    ∧ branchClaim c2Releases c2Branches =
        [pubRel "3.0.5", pubRel "4.0.1", pubRel "5.0.3"] := by
  refine ⟨?_, ?_, by decide, by decide, by decide⟩
  · intro rs bs hbs
    unfold latestPerBranchT branchClaim
    rw [if_neg hbs]
    apply filterMap_congr_mem
    intro b hb
    rw [lpbLoopT_val bs rs (fun _ => none) b hb]
    rfl
  · intro rs bs hbs hnp
    unfold LatestPerBranch branchClaim
    rw [if_neg hbs]
    apply filterMap_congr_mem
    intro b hb
    have huniq : ∀ v : List Char, ∀ b1 ∈ bs, ∀ b2 ∈ bs,
        b1.isPrefixOf v = true → b2.isPrefixOf v = true → b1 = b2 := by
      intro v b1 h1 b2 h2 hp1 hp2
      by_cases heq : b1 = b2
      · exact heq
      · rcases List.prefix_or_prefix_of_prefix
          (List.isPrefixOf_iff_prefix.mp hp1) (List.isPrefixOf_iff_prefix.mp hp2) with h | h
        · exact absurd (List.isPrefixOf_iff_prefix.mpr h) (hnp b1 h1 b2 h2 heq)
        · exact absurd (List.isPrefixOf_iff_prefix.mpr h)
            (hnp b2 h2 b1 h1 (fun hx => heq hx.symm))
    rw [lpbLoop_val bs huniq rs (fun _ => none) b hb]
    rfl

/-- C2 counterexample: with overlapping declared branches `1.` and `1.2`
and one published release `1.2.3`, branch `1.2` has a published match but
drupalupdate.go's selector returns only one entry, not the claimed one
entry per matched branch. -/
theorem claim_C2_cex :
    LatestPerBranch [pubRel "1.2.3"] cexBranches = [pubRel "1.2.3"]
    ∧ branchClaim [pubRel "1.2.3"] cexBranches = [pubRel "1.2.3", pubRel "1.2.3"]
    ∧ ¬ (LatestPerBranch [pubRel "1.2.3"] cexBranches =
        branchClaim [pubRel "1.2.3"] cexBranches) := by
  decide

/-- C2 witness: the amended theorem applied to the spec's concrete
scenario, discharging the non-emptiness and prefix-freedom hypotheses. -/
theorem claim_C2_witness :
    latestPerBranchT c2Releases c2Branches = branchClaim c2Releases c2Branches
    ∧ LatestPerBranch c2Releases c2Branches = branchClaim c2Releases c2Branches := by
  exact ⟨claim_C2_branch_selection.1 c2Releases c2Branches (by decide),
    claim_C2_branch_selection.2.1 c2Releases c2Branches (by decide) (by decide)⟩

theorem charsLt_asymm : ∀ a b : List Char, charsLt a b = true → charsLt b a = false := by
  intro a
  induction a with
  | nil =>
    intro b h
    cases b with
    | nil => simp [charsLt] at h
    | cons d ds => simp [charsLt]
  | cons c cs ih =>
    intro b h
    cases b with
    | nil => simp [charsLt] at h
    | cons d ds =>
      simp only [charsLt] at h ⊢
      by_cases h1 : c < d
      · rw [if_neg (lt_asymm h1), if_pos h1]
      · rw [if_neg h1] at h
        by_cases h2 : d < c
        · rw [if_pos h2] at h
          exact absurd h (by simp)
        · rw [if_neg h2] at h
          rw [if_neg h2, if_neg h1]
          exact ih ds h

theorem mem_filterPackages (req : List (List Char × List Char))
    (fl : List Char → List Char → Option (List Char)) (p : Package) :
    p ∈ filterPackages req fl ↔
      ∃ e ∈ req, (fl e.1 e.2).map (fun m => Package.mk e.1 m e.2) = some p := by
  unfold filterPackages
  rw [(sortBy_perm _ _).mem_iff, List.mem_filterMap]

theorem mem_DrupalPackages (req : List (List Char × List Char)) (p : Package) :
    p ∈ DrupalPackages req ↔
      (p.name, p.version) ∈ req ∧ drupalModuleName p.name = some p.module
        ∧ isCorePackage p.module = false := by
  rw [DrupalPackages, mem_filterPackages]
  constructor
  · rintro ⟨e, he, hm⟩
    rw [Option.map_eq_some'] at hm
    obtain ⟨m, hfl, hp⟩ := hm
    cases hdm : drupalModuleName e.1 with
    | none =>
      rw [hdm] at hfl
      exact absurd ((rfl : (none : Option (List Char)) = none).symm.trans hfl) (by simp)
    | some m0 =>
      rw [hdm] at hfl
      have hfl2 : (if isCorePackage m0 = true then none else some m0 : Option (List Char)) =
          some m := hfl
      by_cases hc : isCorePackage m0 = true
      · rw [if_pos hc] at hfl2; exact absurd hfl2 (by simp)
      · rw [if_neg hc] at hfl2
        cases hfl2
        cases hp
        exact ⟨he, hdm, by simpa using hc⟩
  · rintro ⟨he, hdm, hc⟩
    refine ⟨(p.name, p.version), he, ?_⟩
    rw [hdm]
    show Option.map (fun m => Package.mk p.name m p.version)
      (if isCorePackage p.module = true then none else some p.module) = some p
    rw [if_neg (by simp [hc])]
    simp

theorem mem_CorePackages (req : List (List Char × List Char)) (p : Package) :
    p ∈ CorePackages req ↔
      (p.name, p.version) ∈ req ∧ drupalModuleName p.name = some p.module
        ∧ isCorePackage p.module = true := by
  rw [CorePackages, mem_filterPackages]
  constructor
  · rintro ⟨e, he, hm⟩
    rw [Option.map_eq_some'] at hm
    obtain ⟨m, hfl, hp⟩ := hm
    cases hdm : drupalModuleName e.1 with
    | none =>
      rw [hdm] at hfl
      exact absurd ((rfl : (none : Option (List Char)) = none).symm.trans hfl) (by simp)
    | some m0 =>
      rw [hdm] at hfl
      have hfl2 : (if isCorePackage m0 = true then some m0 else none : Option (List Char)) =
          some m := hfl
      by_cases hc : isCorePackage m0 = true
      · rw [if_pos hc] at hfl2
        cases hfl2
        cases hp
        exact ⟨he, hdm, hc⟩
      · rw [if_neg hc] at hfl2; exact absurd hfl2 (by simp)
  · rintro ⟨he, hdm, hc⟩
    refine ⟨(p.name, p.version), he, ?_⟩
    rw [hdm]
    show Option.map (fun m => Package.mk p.name m p.version)
      (if isCorePackage p.module = true then some p.module else none) = some p
    rw [if_pos hc]
    simp

theorem mem_ComposerPackages (req : List (List Char × List Char)) (p : Package) :
    p ∈ ComposerPackages req ↔
      (p.name, p.version) ∈ req ∧ p.module = p.name
        ∧ isSkippablePackage p.name = false ∧ drupalModuleName p.name = none := by
  rw [ComposerPackages, mem_filterPackages]
  constructor
  · rintro ⟨e, he, hm⟩
    rw [Option.map_eq_some'] at hm
    obtain ⟨m, hfl, hp⟩ := hm
    by_cases hs : isSkippablePackage e.1 = true
    · rw [if_pos hs] at hfl; exact absurd hfl (by simp)
    · rw [if_neg hs] at hfl
      cases hdm : drupalModuleName e.1 with
      | some m0 =>
        rw [hdm] at hfl
        exact absurd ((rfl : (none : Option (List Char)) = none).symm.trans hfl) (by simp)
      | none =>
        rw [hdm] at hfl
        have hfl2 : (some e.1 : Option (List Char)) = some m := hfl
        cases hfl2
        cases hp
        exact ⟨he, rfl, by simpa using hs, hdm⟩
  · rintro ⟨he, hmod, hs, hdm⟩
    refine ⟨(p.name, p.version), he, ?_⟩
    show Option.map (fun m => Package.mk p.name m p.version)
      (if isSkippablePackage p.name = true then none
       else match drupalModuleName p.name with
            | some _ => none
            | none => some p.name) = some p
    rw [if_neg (by simp [hs]), hdm]
    show Option.map (fun m => Package.mk p.name m p.version) (some p.name) = some p
    obtain ⟨n2, m2, v2⟩ := p
    simp only at hmod
    subst hmod
    simp

/-- C6: the three extraction passes are pairwise disjoint, each output is
sorted ascending by full package name, and every dependency entry either
lands in exactly one of the three lists (according to its classification)
or is dropped as a skippable non-module entry; on the spec's scenario the
lists are exactly core = [drupal/core-recommended],
module = [drupal/admin_toolbar], other = [drush/drush], with `php` in
none of them. -/
theorem claim_C6_classification :
    (∀ (req : List (List Char × List Char)) (p : Package),
      ¬ (p ∈ DrupalPackages req ∧ p ∈ CorePackages req)
      ∧ ¬ (p ∈ DrupalPackages req ∧ p ∈ ComposerPackages req)
      ∧ ¬ (p ∈ CorePackages req ∧ p ∈ ComposerPackages req))
    ∧ (∀ req : List (List Char × List Char),
      List.Chain' (fun p q : Package => charsLt q.name p.name = false) (DrupalPackages req)
      ∧ List.Chain' (fun p q : Package => charsLt q.name p.name = false) (CorePackages req)
      ∧ List.Chain' (fun p q : Package => charsLt q.name p.name = false) (ComposerPackages req))
    ∧ (∀ (req : List (List Char × List Char)) (n v : List Char), (n, v) ∈ req →
      (∃ m, drupalModuleName n = some m ∧ isCorePackage m = true
        ∧ Package.mk n m v ∈ CorePackages req)
      ∨ (∃ m, drupalModuleName n = some m ∧ isCorePackage m = false
        ∧ Package.mk n m v ∈ DrupalPackages req)
      ∨ (drupalModuleName n = none ∧ isSkippablePackage n = false
        ∧ Package.mk n n v ∈ ComposerPackages req)
      ∨ (drupalModuleName n = none ∧ isSkippablePackage n = true))
    ∧ CorePackages c6Require =
        [Package.mk (chars "drupal/core-recommended") (chars "core-recommended") (chars "^11")]
    ∧ DrupalPackages c6Require =
        [Package.mk (chars "drupal/admin_toolbar") (chars "admin_toolbar") (chars "^3.6")]
    ∧ ComposerPackages c6Require =
        [Package.mk (chars "drush/drush") (chars "drush/drush") (chars "^13")] := by
  refine ⟨?_, ?_, ?_, by decide, by decide, by decide⟩
  · intro req p
    refine ⟨?_, ?_, ?_⟩
    · rintro ⟨h1, h2⟩
      obtain ⟨_, hdm1, hc1⟩ := (mem_DrupalPackages req p).mp h1
      obtain ⟨_, hdm2, hc2⟩ := (mem_CorePackages req p).mp h2
      rw [hc1] at hc2
      exact absurd hc2 (by simp)
    · rintro ⟨h1, h2⟩
      obtain ⟨_, hdm1, _⟩ := (mem_DrupalPackages req p).mp h1
      obtain ⟨_, _, _, hdm2⟩ := (mem_ComposerPackages req p).mp h2
      rw [hdm1] at hdm2
      exact absurd hdm2 (by simp)
    · rintro ⟨h1, h2⟩
      obtain ⟨_, hdm1, _⟩ := (mem_CorePackages req p).mp h1
      obtain ⟨_, _, _, hdm2⟩ := (mem_ComposerPackages req p).mp h2
      rw [hdm1] at hdm2
      exact absurd hdm2 (by simp)
  · intro req
    refine ⟨?_, ?_, ?_⟩ <;>
      exact chain_sortBy _ _
        (fun x y h => charsLt_asymm x.name y.name h)
        (fun x y h => h) _
  · intro req n v hmem
    cases hdm : drupalModuleName n with
    | some m =>
      cases hc : isCorePackage m with
      | true =>
        exact Or.inl ⟨m, rfl, hc, (mem_CorePackages req _).mpr ⟨hmem, hdm, hc⟩⟩
      | false =>
        exact Or.inr (Or.inl ⟨m, rfl, hc, (mem_DrupalPackages req _).mpr ⟨hmem, hdm, hc⟩⟩)
    | none =>
      cases hs : isSkippablePackage n with
      | true => exact Or.inr (Or.inr (Or.inr ⟨rfl, rfl⟩))
      | false =>
        exact Or.inr (Or.inr (Or.inl ⟨rfl, rfl,
          (mem_ComposerPackages req _).mpr ⟨hmem, rfl, hs, hdm⟩⟩))

/-- C6 witness: the partition component applied to the `drupal/core-recommended`
entry of the spec's scenario, with the membership hypothesis discharged. -/
theorem claim_C6_witness :
    Package.mk (chars "drupal/core-recommended") (chars "core-recommended") (chars "^11")
      ∈ CorePackages c6Require := by
  rcases claim_C6_classification.2.2.1 c6Require (chars "drupal/core-recommended")
    (chars "^11") (by decide) with h | h | h | h
  · obtain ⟨m, hm, _, hmem⟩ := h
    rw [show drupalModuleName (chars "drupal/core-recommended")
      = some (chars "core-recommended") from rfl] at hm
    injection hm with h3
    rw [← h3] at hmem
    exact hmem
  · obtain ⟨m, hm, hc, _⟩ := h
    rw [show drupalModuleName (chars "drupal/core-recommended")
      = some (chars "core-recommended") from rfl] at hm
    injection hm with h3
    rw [← h3] at hc
    exact absurd hc (by decide)
  · exact absurd h.1 (by decide)
  · exact absurd h.1 (by decide)

theorem char_le_iff {a b : Char} : a ≤ b ↔ a.toNat ≤ b.toNat := Iff.rfl

theorem wrap64_lb (x : Int) : -2 ^ 63 ≤ wrap64 x := by unfold wrap64; omega

theorem wrap64_ub (x : Int) : wrap64 x < 2 ^ 63 := by unfold wrap64; omega

theorem wrap64_id (x : Int) (h1 : -2 ^ 63 ≤ x) (h2 : x < 2 ^ 63) : wrap64 x = x := by
  unfold wrap64; omega

theorem wrap64_eq_of_emod {a b : Int} (h : a % 2 ^ 64 = b % 2 ^ 64) :
    wrap64 a = wrap64 b := by
  unfold wrap64; omega

theorem wrap64_emod (a : Int) : wrap64 a % 2 ^ 64 = a % 2 ^ 64 := by
  unfold wrap64; omega

theorem isDigit_toNat {c : Char} (h : isDigit c = true) :
    48 ≤ c.toNat ∧ c.toNat ≤ 57 := by
  unfold isDigit at h
  rw [Bool.and_eq_true, decide_eq_true_eq, decide_eq_true_eq] at h
  exact ⟨char_le_iff.mp h.1, char_le_iff.mp h.2⟩

theorem pliLoop_wrap : ∀ (l : List Char) (m : Nat),
    pliLoop l (wrap64 (m : Int)) = wrap64 ((numAcc l m : Nat) : Int) := by
  intro l
  induction l with
  | nil => intro m; rfl
  | cons c t ih =>
    intro m
    cases hd : isDigit c with
    | false => simp [pliLoop, numAcc, hd]
    | true =>
      simp only [pliLoop, numAcc, hd, if_true]
      have h48 := (isDigit_toNat hd).1
      have hcast : ((m : Int) * 10 + ((c.toNat : Int) - 48)) =
          (((m * 10 + (c.toNat - 48) : Nat) : Int)) := by
        push_cast [h48]
        ring
      have hmod : (wrap64 (m : Int) * 10 + ((c.toNat : Int) - 48)) % 2 ^ 64 =
          ((m : Int) * 10 + ((c.toNat : Int) - 48)) % 2 ^ 64 := by
        have := wrap64_emod (m : Int)
        omega
      rw [wrap64_eq_of_emod hmod, hcast, ih]

theorem parseLeadingIntS_eq (s : List Char) :
    parseLeadingIntS s = wrap64 ((numAcc s 0 : Nat) : Int) := by
  have h0 : (0 : Int) = wrap64 ((0 : Nat) : Int) := by unfold wrap64; norm_num
  unfold parseLeadingIntS
  rw [h0, pliLoop_wrap s 0]

theorem parseLeadingIntS_form (s : List Char) :
    ∃ n : Nat, parseLeadingIntS s = wrap64 (n : Int)
      ∧ ((n : Int) < 2 ^ 63 → parseLeadingIntS s = (n : Int)) := by
  refine ⟨numAcc s 0, parseLeadingIntS_eq s, fun h => ?_⟩
  have hnn : (0 : Int) ≤ ((numAcc s 0 : Nat) : Int) := Int.natCast_nonneg _
  rw [parseLeadingIntS_eq s, wrap64_id _ (by omega) h]

theorem parseLeadingIntS_lt (s : List Char) : parseLeadingIntS s < 2 ^ 63 := by
  rw [parseLeadingIntS_eq s]
  exact wrap64_ub _

theorem natDigitsF_fuel (n : Nat) : ∀ f g : Nat, n < f → n < g →
    natDigitsF f n = natDigitsF g n := by
  induction n using Nat.strong_induction_on with
  | _ n ih =>
    intro f g hf hg
    match f, g with
    | f' + 1, g' + 1 =>
      simp only [natDigitsF]
      by_cases h10 : n < 10
      · simp [h10]
      · rw [if_neg h10, if_neg h10]
        have hdiv : n / 10 < n := Nat.div_lt_self (by omega) (by omega)
        rw [ih (n / 10) hdiv f' g' (by omega) (by omega)]

theorem natDigits_unfold (n : Nat) :
    natDigits n = if n < 10 then [Char.ofNat (48 + n)]
      else natDigits (n / 10) ++ [Char.ofNat (48 + n % 10)] := by
  unfold natDigits
  by_cases h10 : n < 10
  · simp [natDigitsF, h10]
  · have hdiv : n / 10 < n := Nat.div_lt_self (by omega) (by omega)
    rw [if_neg h10]
    show natDigitsF (n + 1) n = _
    rw [show natDigitsF (n + 1) n = (if n < 10 then [Char.ofNat (48 + n)]
      else natDigitsF n (n / 10) ++ [Char.ofNat (48 + n % 10)]) from rfl, if_neg h10,
      natDigitsF_fuel (n / 10) n (n / 10 + 1) (by omega) (by omega)]

theorem digit_char_isDigit {k : Nat} (hk : k < 10) :
    isDigit (Char.ofNat (48 + k)) = true := by
  interval_cases k <;> decide

theorem digit_char_toNat {k : Nat} (hk : k < 10) :
    (Char.ofNat (48 + k)).toNat = 48 + k := by
  interval_cases k <;> decide

theorem natDigits_digits (n : Nat) : ∀ c ∈ natDigits n, isDigit c = true := by
  induction n using Nat.strong_induction_on with
  | _ n ih =>
    intro c hc
    rw [natDigits_unfold] at hc
    by_cases h10 : n < 10
    · rw [if_pos h10] at hc
      simp only [List.mem_singleton] at hc
      subst hc
      exact digit_char_isDigit h10
    · rw [if_neg h10] at hc
      rw [List.mem_append] at hc
      rcases hc with hc | hc
      · exact ih (n / 10) (Nat.div_lt_self (by omega) (by omega)) c hc
      · simp only [List.mem_singleton] at hc
        subst hc
        exact digit_char_isDigit (Nat.mod_lt n (by omega))

theorem natDigits_ne_nil (n : Nat) : natDigits n ≠ [] := by
  rw [natDigits_unfold]
  by_cases h10 : n < 10
  · simp [h10]
  · rw [if_neg h10]
    simp

theorem numAcc_append_digits : ∀ (a : List Char), (∀ c ∈ a, isDigit c = true) →
    ∀ (r : List Char) (acc : Nat), numAcc (a ++ r) acc = numAcc r (numAcc a acc) := by
  intro a
  induction a with
  | nil => intro _ r acc; rfl
  | cons c t ih =>
    intro ha r acc
    have hc : isDigit c = true := ha c (by simp)
    simp only [List.cons_append, numAcc, hc, if_true]
    exact ih (fun x hx => ha x (by simp [hx])) r _

theorem numAcc_stop (r : List Char) (v : Nat)
    (hr : r = [] ∨ ∃ d t, r = d :: t ∧ isDigit d = false) : numAcc r v = v := by
  rcases hr with rfl | ⟨d, t, rfl, hd⟩
  · rfl
  · simp [numAcc, hd]

theorem numAcc_natDigits (n : Nat) : numAcc (natDigits n) 0 = n := by
  induction n using Nat.strong_induction_on with
  | _ n ih =>
    rw [natDigits_unfold]
    by_cases h10 : n < 10
    · rw [if_pos h10]
      simp [numAcc, digit_char_isDigit h10, digit_char_toNat h10]
    · rw [if_neg h10]
      rw [numAcc_append_digits _ (natDigits_digits _) _ 0,
        ih (n / 10) (Nat.div_lt_self (by omega) (by omega))]
      have hm : n % 10 < 10 := Nat.mod_lt n (by omega)
      simp only [numAcc, digit_char_isDigit hm, if_true, digit_char_toNat hm]
      have : n / 10 * 10 + (48 + n % 10 - 48) = n := by omega
      rw [this]

theorem pli_natDigits_append (n : Nat) (hn : (n : Int) < 2 ^ 63) (r : List Char)
    (hr : r = [] ∨ ∃ d t, r = d :: t ∧ isDigit d = false) :
    parseLeadingIntS (natDigits n ++ r) = (n : Int) := by
  rw [parseLeadingIntS_eq, numAcc_append_digits _ (natDigits_digits _) _ 0,
    numAcc_natDigits, numAcc_stop r n hr, wrap64_id _ (by omega) hn]

theorem dashOk_tail {c : Char} {t : List Char} (h : dashOk (c :: t) = true) :
    dashOk t = true := by
  simp only [dashOk, Bool.and_eq_true] at h
  exact h.2

theorem dashOk_cons {c : Char} {t : List Char} (hc : ¬ c = '-') (ht : dashOk t = true) :
    dashOk (c :: t) = true := by
  simp [dashOk, hc, ht]

theorem isDigit_ne_dash {c : Char} (h : isDigit c = true) : ¬ c = '-' := by
  intro hc
  subst hc
  exact absurd h (by decide)

theorem dashOk_append_digits : ∀ (a : List Char), (∀ c ∈ a, isDigit c = true) →
    ∀ b : List Char, dashOk b = true → dashOk (a ++ b) = true := by
  intro a
  induction a with
  | nil => intro _ b hb; simpa using hb
  | cons c t ih =>
    intro ha b hb
    have hc : isDigit c = true := ha c (by simp)
    exact dashOk_cons (isDigit_ne_dash hc) (ih (fun x hx => ha x (by simp [hx])) b hb)

theorem dashOk_noDash : ∀ (l : List Char), (∀ c ∈ l, ¬ c = '-') → dashOk l = true := by
  intro l
  induction l with
  | nil => intro; rfl
  | cons c t ih =>
    intro h
    exact dashOk_cons (h c (by simp)) (ih (fun x hx => h x (by simp [hx])))

theorem headDigit_digits_append {k : Nat} (b : List Char) :
    headDigit (natDigits k ++ b) = true := by
  cases hd : natDigits k with
  | nil => exact absurd hd (natDigits_ne_nil k)
  | cons c t =>
    have hc : isDigit c = true := natDigits_digits k c (by rw [hd]; simp)
    simp [headDigit, hc]

theorem dashOk_dash_digits (k : Nat) (b : List Char)
    (hb : dashOk (natDigits k ++ b) = true) :
    dashOk ('-' :: (natDigits k ++ b)) = true := by
  simp [dashOk, headDigit_digits_append, hb]

theorem goIndex_dash_none : ∀ (l : List Char) (p2 : Char) (rest : List Char),
    dashOk l = true → isDigit p2 = false → goIndex l ('-' :: p2 :: rest) = none := by
  intro l
  induction l with
  | nil => intro p2 rest _ _; simp [goIndex]
  | cons c t ih =>
    intro p2 rest hd hp
    have hpre : ('-' :: p2 :: rest).isPrefixOf (c :: t) = false := by
      by_cases hc : c = '-'
      · subst hc
        simp only [dashOk, if_pos rfl, Bool.and_eq_true] at hd
        cases t with
        | nil => simp [List.isPrefixOf]
        | cons d t' =>
          have hdd : isDigit d = true := by simpa [headDigit] using hd.1
          have hne : (p2 == d) = false := by
            rw [beq_eq_false_iff_ne]
            intro he
            subst he
            rw [hdd] at hp
            exact absurd hp (by simp)
          simp [List.isPrefixOf, hne]
      · have : ('-' == c) = false := by
          rw [beq_eq_false_iff_ne]
          exact fun he => hc he.symm
        simp [List.isPrefixOf, this]
    simp only [goIndex, hpre, Bool.false_eq_true, if_false]
    rw [ih p2 rest (dashOk_tail hd) hp]
    rfl

theorem span_all_pos {p : Char → Bool} {l : List Char} (h : ∀ c ∈ l, p c = true) :
    List.span p l = (l, []) := by
  rw [List.span_eq_take_drop]
  rw [List.takeWhile_eq_self_iff.mpr h, List.dropWhile_eq_nil_iff.mpr h]

theorem span_head_neg {p : Char → Bool} {c : Char} {l : List Char} (h : p c = false) :
    List.span p (c :: l) = ([], c :: l) := by
  rw [List.span_eq_take_drop, List.takeWhile_cons_of_neg (by simp [h]),
    List.dropWhile_cons_of_neg (by simp [h])]

theorem span_append_neg {p : Char → Bool} (a : List Char) (ha : ∀ c ∈ a, p c = true)
    {c : Char} (hc : p c = false) (b : List Char) :
    List.span p (a ++ c :: b) = (a, c :: b) := by
  rw [List.span_eq_take_drop, Prod.mk.injEq]
  constructor
  · induction a with
    | nil => simpa using List.takeWhile_cons_of_neg (p := p) (l := b) (by simp [hc])
    | cons x t ih =>
      rw [List.cons_append, List.takeWhile_cons_of_pos (by simp [ha x (by simp)])]
      rw [ih (fun y hy => ha y (by simp [hy]))]
  · induction a with
    | nil => simpa using List.dropWhile_cons_of_neg (p := p) (l := b) (by simp [hc])
    | cons x t ih =>
      rw [List.cons_append, List.dropWhile_cons_of_pos (by simp [ha x (by simp)])]
      exact ih (fun y hy => ha y (by simp [hy]))

theorem splitNOn_no_sep (sep : Char) : ∀ (m : Nat) (l : List Char),
    (∀ c ∈ l, ¬ c = sep) → splitNOn sep (m + 1) l = [l] := by
  intro m l h
  cases m with
  | zero => rfl
  | succ m =>
    show (match List.span (fun c => decide (¬ (c = sep))) l with
      | (before, []) => [before]
      | (before, _ :: tail) => before :: splitNOn sep (Nat.succ m) tail) = [l]
    rw [span_all_pos (fun c hc => by simpa using h c hc)]

theorem splitNOn_sep_append (sep : Char) (m : Nat) (a b : List Char)
    (ha : ∀ c ∈ a, ¬ c = sep) :
    splitNOn sep (m + 2) (a ++ sep :: b) = a :: splitNOn sep (m + 1) b := by
  show (match List.span (fun c => decide (¬ (c = sep))) (a ++ sep :: b) with
    | (before, []) => [before]
    | (before, _ :: tail) => before :: splitNOn sep (m + 1) tail) = a :: splitNOn sep (m + 1) b
  rw [span_append_neg a (fun c hc => by simpa using ha c hc) (by simp) b]

theorem splitNOn_length_pos (sep : Char) (m : Nat) (s : List Char) :
    0 < (splitNOn sep (m + 1) s).length := by
  cases m with
  | zero => simp [splitNOn]
  | succ m =>
    show 0 < (match List.span (fun c => decide (¬ (c = sep))) s with
      | (before, []) => [before]
      | (before, _ :: tail) => before :: splitNOn sep (Nat.succ m) tail).length
    rcases List.span (fun c => decide (¬ (c = sep))) s with ⟨before, tail⟩
    cases tail <;> simp

theorem itoa_chars (n : Int) : ∀ c ∈ itoa n, isDigit c = true ∨ c = '-' := by
  intro c hc
  unfold itoa at hc
  split at hc
  · rcases List.mem_cons.mp hc with rfl | hmem
    · exact Or.inr rfl
    · exact Or.inl (natDigits_digits _ c hmem)
  · exact Or.inl (natDigits_digits _ c hc)

theorem itoa_no_dot (n : Int) : ∀ c ∈ itoa n, ¬ c = '.' := by
  intro c hc he
  subst he
  rcases itoa_chars n '.' hc with h | h
  · exact absurd h (by decide)
  · exact absurd h (by decide)

theorem lowCh_low {c : Char} (h : c.toNat < 65 ∨ 90 < c.toNat) : lowCh c = c := by
  unfold lowCh
  rw [if_neg]
  rintro ⟨h1, h2⟩
  rw [char_le_iff] at h1 h2
  revert h1 h2
  show 65 ≤ c.toNat → c.toNat ≤ 90 → False
  omega

theorem lowStr_id (l : List Char) (h : ∀ c ∈ l, lowCh c = c) : lowStr l = l := by
  induction l with
  | nil => rfl
  | cons c t ih =>
    simp only [lowStr, List.map_cons, h c (by simp)]
    rw [show List.map lowCh t = lowStr t from rfl, ih (fun x hx => h x (by simp [hx]))]

theorem lowCh_itoa (n : Int) : ∀ c ∈ itoa n, lowCh c = c := by
  intro c hc
  rcases itoa_chars n c hc with h | h
  · exact lowCh_low (Or.inl (by have := (isDigit_toNat h).2; omega))
  · subst h
    exact lowCh_low (by decide)

theorem versionFromRest_stab (k : Nat) (pfx stab rest : List Char) :
    (versionFromRest k pfx stab rest).stability = stab := rfl

theorem versionFromRest_pfx (k : Nat) (pfx stab rest : List Char) :
    (versionFromRest k pfx stab rest).pfx = pfx := rfl

theorem versionFromRest_minor_lt (k : Nat) (pfx stab rest : List Char) :
    (versionFromRest k pfx stab rest).minor < 2 ^ 63 := by
  show (if (splitNOn '.' k rest).length ≥ 2
    then parseLeadingIntS ((splitNOn '.' k rest).getD 1 []) else -1) < 2 ^ 63
  split
  · exact parseLeadingIntS_lt _
  · norm_num

theorem versionFromRest_major (k : Nat) (pfx stab rest : List Char) :
    ∃ n : Nat, (versionFromRest (k + 1) pfx stab rest).major = wrap64 (n : Int)
      ∧ ((n : Int) < 2 ^ 63 → (versionFromRest (k + 1) pfx stab rest).major = (n : Int)) := by
  have hlen : (splitNOn '.' (k + 1) rest).length ≥ 1 := splitNOn_length_pos '.' k rest
  have hmaj : (versionFromRest (k + 1) pfx stab rest).major =
      parseLeadingIntS ((splitNOn '.' (k + 1) rest).getD 0 []) := by
    show (if (splitNOn '.' (k + 1) rest).length ≥ 1
      then parseLeadingIntS ((splitNOn '.' (k + 1) rest).getD 0 []) else -1) = _
    rw [if_pos hlen]
  rw [hmaj]
  exact parseLeadingIntS_form _

theorem parseS_cases (s : List Char) :
    ∃ pfx stab rest, ParseVersionS s = versionFromRest 4 pfx stab rest
      ∧ (stab = [] ∨ stab = chars "RC" ∨ stab = chars "beta" ∨ stab = chars "alpha") := by
  unfold ParseVersionS
  dsimp only
  split
  · exact ⟨_, _, _, rfl, Or.inr (Or.inl rfl)⟩
  · split
    · exact ⟨_, _, _, rfl, Or.inr (Or.inr (Or.inl rfl))⟩
    · split
      · exact ⟨_, _, _, rfl, Or.inr (Or.inr (Or.inr rfl))⟩
      · exact ⟨_, _, _, rfl, Or.inl rfl⟩

theorem parseS_stability (s : List Char) :
    (ParseVersionS s).stability = [] ∨ (ParseVersionS s).stability = chars "RC"
    ∨ (ParseVersionS s).stability = chars "beta"
    ∨ (ParseVersionS s).stability = chars "alpha" := by
  obtain ⟨pfx, stab, rest, heq, hst⟩ := parseS_cases s
  rw [heq, versionFromRest_stab]
  exact hst

theorem parseS_minor_lt (s : List Char) : (ParseVersionS s).minor < 2 ^ 63 := by
  obtain ⟨pfx, stab, rest, heq, _⟩ := parseS_cases s
  rw [heq]
  exact versionFromRest_minor_lt _ _ _ _

theorem parseS_major_form (s : List Char) :
    ∃ n : Nat, (ParseVersionS s).major = wrap64 (n : Int)
      ∧ ((n : Int) < 2 ^ 63 → (ParseVersionS s).major = (n : Int)) := by
  obtain ⟨pfx, stab, rest, heq, _⟩ := parseS_cases s
  rw [heq]
  exact versionFromRest_major 3 _ _ _

theorem versionPin_eq (v : Version) :
    v.VersionPin = '^' :: ((if v.minor ≥ 0 then itoa v.major ++ '.' :: itoa v.minor
      else itoa v.major) ++ (if v.stability = [] then [] else '@' :: v.stability)) := by
  unfold Version.VersionPin
  rw [List.cons_append]

theorem pli_caret (t : List Char) : parseLeadingIntS ('^' :: t) = 0 := rfl

theorem dashOk_itoa_append (n : Int) (b : List Char) (hb : dashOk b = true) :
    dashOk (itoa n ++ b) = true := by
  unfold itoa
  split
  · rw [List.cons_append]
    exact dashOk_dash_digits _ b (dashOk_append_digits _ (natDigits_digits _) b hb)
  · exact dashOk_append_digits _ (natDigits_digits _) b hb

theorem versionFromRest_one (pfx stab rest a : List Char)
    (h : splitNOn '.' 4 rest = [a]) :
    versionFromRest 4 pfx stab rest =
      { pfx := pfx, stability := stab, major := parseLeadingIntS a,
        minor := -1, patch := -1 } := by
  unfold versionFromRest
  rw [h]
  rfl

theorem versionFromRest_two (pfx stab rest a b : List Char)
    (h : splitNOn '.' 4 rest = [a, b]) :
    versionFromRest 4 pfx stab rest =
      { pfx := pfx, stability := stab, major := parseLeadingIntS a,
        minor := parseLeadingIntS b, patch := -1 } := by
  unfold versionFromRest
  rw [h]
  rfl

theorem parseS_pin_core (major minor : Int) (stabT : List Char)
    (hmb : minor < 2 ^ 63)
    (hnd : ∀ c ∈ stabT, ¬ c = '.')
    (hhd : stabT = [] ∨ ∃ d t, stabT = d :: t ∧ isDigit d = false)
    (hlow : ∀ c ∈ lowStr stabT, ¬ c = '-') :
    ParseVersionS ('^' :: ((if minor ≥ 0 then itoa major ++ '.' :: itoa minor
        else itoa major) ++ stabT)) =
      { pfx := [], stability := [], major := 0,
        minor := if 0 ≤ minor then minor else -1, patch := -1 } := by
  have hstabdash : dashOk (lowStr stabT) = true := dashOk_noDash _ hlow
  by_cases hm : minor ≥ 0
  case pos =>
    rw [if_pos hm]
    have hassoc : ('^' :: ((itoa major ++ '.' :: itoa minor) ++ stabT)) =
        ('^' :: itoa major) ++ '.' :: (itoa minor ++ stabT) := by
      simp [List.append_assoc]
    rw [hassoc]
    have ha_nodot : ∀ c ∈ ('^' :: itoa major), ¬ c = '.' := by
      intro c hc
      rcases List.mem_cons.mp hc with rfl | hmem
      · decide
      · exact itoa_no_dot major c hmem
    have hb_nodot : ∀ c ∈ itoa minor ++ stabT, ¬ c = '.' := by
      intro c hc
      rcases List.mem_append.mp hc with hmem | hmem
      · exact itoa_no_dot minor c hmem
      · exact hnd c hmem
    have hp_eq : ('^' :: itoa major) ++ '.' :: (itoa minor ++ stabT) =
        '^' :: (itoa major ++ '.' :: (itoa minor ++ stabT)) := by
      rw [List.cons_append]
    have hlowp : lowStr (('^' :: itoa major) ++ '.' :: (itoa minor ++ stabT)) =
        '^' :: (itoa major ++ '.' :: (itoa minor ++ lowStr stabT)) := by
      rw [hp_eq]
      show List.map lowCh _ = _
      simp only [List.map_cons, List.map_append]
      rw [show lowCh '^' = '^' from by decide, show lowCh '.' = '.' from by decide,
        show List.map lowCh (itoa major) = itoa major from lowStr_id _ (lowCh_itoa major),
        show List.map lowCh (itoa minor) = itoa minor from lowStr_id _ (lowCh_itoa minor)]
      rfl
    have hdash : dashOk (lowStr (('^' :: itoa major) ++ '.' :: (itoa minor ++ stabT))) =
        true := by
      rw [hlowp]
      refine dashOk_cons (by decide) ?_
      refine dashOk_itoa_append major _ ?_
      refine dashOk_cons (by decide) ?_
      exact dashOk_itoa_append minor _ hstabdash
    have hrc : goIndex (lowStr (('^' :: itoa major) ++ '.' :: (itoa minor ++ stabT)))
        (chars "-rc") = none := goIndex_dash_none _ 'r' _ hdash (by decide)
    have hbeta : goIndex (lowStr (('^' :: itoa major) ++ '.' :: (itoa minor ++ stabT)))
        (chars "-beta") = none := goIndex_dash_none _ 'b' _ hdash (by decide)
    have halpha : goIndex (lowStr (('^' :: itoa major) ++ '.' :: (itoa minor ++ stabT)))
        (chars "-alpha") = none := goIndex_dash_none _ 'a' _ hdash (by decide)
    have hpfx8 : (chars "8.x-").isPrefixOf
        (('^' :: itoa major) ++ '.' :: (itoa minor ++ stabT)) = false := by
      rw [hp_eq]
      show (['8', '.', 'x', '-'] : List Char).isPrefixOf ('^' :: _) = false
      simp [List.isPrefixOf]
    have hps : ParseVersionS (('^' :: itoa major) ++ '.' :: (itoa minor ++ stabT)) =
        versionFromRest 4 [] [] (('^' :: itoa major) ++ '.' :: (itoa minor ++ stabT)) := by
      unfold ParseVersionS
      simp only [hpfx8, Bool.false_eq_true, if_false, hrc, hbeta, halpha]
    have hsplit : splitNOn '.' 4 (('^' :: itoa major) ++ '.' :: (itoa minor ++ stabT)) =
        ['^' :: itoa major, itoa minor ++ stabT] := by
      rw [splitNOn_sep_append '.' 2 _ _ ha_nodot,
        splitNOn_no_sep '.' 2 _ hb_nodot]
    have hplib : parseLeadingIntS (itoa minor ++ stabT) = minor := by
      have hit : itoa minor = natDigits minor.toNat := by
        unfold itoa
        rw [if_neg (by omega)]
      have htn : ((minor.toNat : Nat) : Int) = minor := Int.toNat_of_nonneg hm
      have hlt : ((minor.toNat : Nat) : Int) < 2 ^ 63 := by rw [htn]; exact hmb
      rw [hit, pli_natDigits_append minor.toNat hlt stabT hhd, htn]
    rw [hps, versionFromRest_two _ _ _ _ _ hsplit, hplib, pli_caret,
      if_pos (show (0 : Int) ≤ minor from hm)]
  case neg =>
    rw [if_neg hm]
    have hnodot : ∀ c ∈ ('^' :: (itoa major ++ stabT)), ¬ c = '.' := by
      intro c hc
      rcases List.mem_cons.mp hc with rfl | hmem
      · decide
      · rcases List.mem_append.mp hmem with hmem | hmem
        · exact itoa_no_dot major c hmem
        · exact hnd c hmem
    have hlowp : lowStr ('^' :: (itoa major ++ stabT)) =
        '^' :: (itoa major ++ lowStr stabT) := by
      show List.map lowCh _ = _
      simp only [List.map_cons, List.map_append]
      rw [show lowCh '^' = '^' from by decide,
        show List.map lowCh (itoa major) = itoa major from lowStr_id _ (lowCh_itoa major)]
      rfl
    have hdash : dashOk (lowStr ('^' :: (itoa major ++ stabT))) = true := by
      rw [hlowp]
      exact dashOk_cons (by decide) (dashOk_itoa_append major _ hstabdash)
    have hrc : goIndex (lowStr ('^' :: (itoa major ++ stabT))) (chars "-rc") = none :=
      goIndex_dash_none _ 'r' _ hdash (by decide)
    have hbeta : goIndex (lowStr ('^' :: (itoa major ++ stabT))) (chars "-beta") = none :=
      goIndex_dash_none _ 'b' _ hdash (by decide)
    have halpha : goIndex (lowStr ('^' :: (itoa major ++ stabT))) (chars "-alpha") = none :=
      goIndex_dash_none _ 'a' _ hdash (by decide)
    have hpfx8 : (chars "8.x-").isPrefixOf ('^' :: (itoa major ++ stabT)) = false := by
      show (['8', '.', 'x', '-'] : List Char).isPrefixOf ('^' :: _) = false
      simp [List.isPrefixOf]
    have hps : ParseVersionS ('^' :: (itoa major ++ stabT)) =
        versionFromRest 4 [] [] ('^' :: (itoa major ++ stabT)) := by
      unfold ParseVersionS
      simp only [hpfx8, Bool.false_eq_true, if_false, hrc, hbeta, halpha]
    have hsplit : splitNOn '.' 4 ('^' :: (itoa major ++ stabT)) =
        ['^' :: (itoa major ++ stabT)] := splitNOn_no_sep '.' 3 _ hnodot
    rw [hps, versionFromRest_one _ _ _ _ hsplit, pli_caret, if_neg (by omega)]

theorem parseS_pin (w : Version)
    (hst : w.stability = [] ∨ w.stability = chars "RC" ∨ w.stability = chars "beta"
      ∨ w.stability = chars "alpha")
    (hmb : w.minor < 2 ^ 63) :
    ParseVersionS w.VersionPin =
      { pfx := [], stability := [], major := 0,
        minor := if 0 ≤ w.minor then w.minor else -1, patch := -1 } := by
  rw [versionPin_eq]
  rcases hst with h | h | h | h <;> rw [h]
  · rw [if_pos (show ([] : List Char) = [] from rfl)]
    exact parseS_pin_core w.major w.minor [] hmb (by simp) (Or.inl rfl) (by simp [lowStr])
  · rw [if_neg (show ¬ (chars "RC" = []) from by decide)]
    exact parseS_pin_core w.major w.minor ('@' :: chars "RC") hmb (by decide)
      (Or.inr ⟨'@', chars "RC", rfl, by decide⟩) (by decide)
  · rw [if_neg (show ¬ (chars "beta" = []) from by decide)]
    exact parseS_pin_core w.major w.minor ('@' :: chars "beta") hmb (by decide)
      (Or.inr ⟨'@', chars "beta", rfl, by decide⟩) (by decide)
  · rw [if_neg (show ¬ (chars "alpha" = []) from by decide)]
    exact parseS_pin_core w.major w.minor ('@' :: chars "alpha") hmb (by decide)
      (Or.inr ⟨'@', chars "alpha", rfl, by decide⟩) (by decide)

theorem reSubs_caret (t : List Char) : reSubs ('^' :: t) = none := by
  have hsp : List.span isDigit ('^' :: t) = ([], '^' :: t) := span_head_neg (by decide)
  have hb : reBody ('^' :: t) = none := by
    unfold reBody
    rw [hsp]
  unfold reSubs
  simp only [hsp, hb, Option.map_none']

theorem parseR_caret (t : List Char) : ParseVersionR ('^' :: t) =
    some { pfx := [], stability := [], major := -1, minor := -1, patch := -1 } := by
  unfold ParseVersionR
  rw [reSubs_caret]

theorem pinParseR_caret (t : List Char) : pinParseR ('^' :: t) = chars "^-1" := by
  unfold pinParseR
  rw [parseR_caret]
  decide

/-- C7: the claim fails (see the counterexample), but the composite
`pin ∘ parse` stabilizes after one more round for both parser revisions:
applying it to an already-computed pin twice gives the same result as
applying it once, for every input string. -/
theorem claim_C7_pin_reparse :
    ∀ s : List Char,
      pinParseS (pinParseS (pinParseS s)) = pinParseS (pinParseS s)
      ∧ pinParseR (pinParseR (pinParseR s)) = pinParseR (pinParseR s) := by
  intro s
  constructor
  · show (ParseVersionS (pinParseS (pinParseS s))).VersionPin = pinParseS (pinParseS s)
    have h1 : pinParseS (pinParseS s) =
        ({ pfx := [], stability := [], major := 0,
           minor := if 0 ≤ (ParseVersionS s).minor then (ParseVersionS s).minor else -1,
           patch := -1 } : Version).VersionPin := by
      show (ParseVersionS ((ParseVersionS s).VersionPin)).VersionPin = _
      rw [parseS_pin (ParseVersionS s) (parseS_stability s) (parseS_minor_lt s)]
    rw [h1]
    have hb2 : (({ pfx := [], stability := [], major := 0,
                   minor := if 0 ≤ (ParseVersionS s).minor then (ParseVersionS s).minor else -1,
                   patch := -1 } : Version)).minor < 2 ^ 63 := by
      dsimp only
      split
      · exact parseS_minor_lt s
      · norm_num
    rw [parseS_pin _ (Or.inl rfl) hb2]
    congr 1
    simp only [Version.mk.injEq, true_and, and_true]
    split_ifs <;> omega
  · have hsh : ∃ t, pinParseR s = '^' :: t := by
      unfold pinParseR
      exact ⟨_, versionPin_eq _⟩
    obtain ⟨t, ht⟩ := hsh
    rw [ht, pinParseR_caret]
    show pinParseR ('^' :: chars "-1") = chars "^-1"
    rw [pinParseR_caret]

/-- C7 counterexample: `pin(parse(v))` is not idempotent for either parser
revision — re-parsing the pin `^5.0` of `5.0.3` yields `^0.0` (string
revision) and `^-1` (regex revision), not `^5.0`. -/
theorem claim_C7_cex :
    pinParseS (chars "5.0.3") = chars "^5.0"
    ∧ pinParseS (pinParseS (chars "5.0.3")) = chars "^0.0"
    ∧ ¬ (pinParseS (pinParseS (chars "5.0.3")) = pinParseS (chars "5.0.3"))
    ∧ pinParseR (chars "5.0.3") = chars "^5.0"
    ∧ pinParseR (pinParseR (chars "5.0.3")) = chars "^-1"
    ∧ ¬ (pinParseR (pinParseR (chars "5.0.3")) = pinParseR (chars "5.0.3")) := by
  decide

theorem parseVersionR_some (s : List Char) (m : List (List Char)) (h : reSubs s = some m) :
    ParseVersionR s = if m.length = 8 then
      some { versionFromRest 3 (m.getD 2 []) (parseStability (m.getD 7 [])) (m.getD 3 []) with
             pfx := m.getD 2 [] }
    else none := by
  unfold ParseVersionR
  rw [h]

theorem parseVersionR_none (s : List Char) (h : reSubs s = none) :
    ParseVersionR s =
      some { pfx := [], stability := [], major := -1, minor := -1, patch := -1 } := by
  unfold ParseVersionR
  rw [h]

theorem versionFromRest_major_eq (k : Nat) (pfx stab rest : List Char) :
    (versionFromRest (k + 1) pfx stab rest).major
      = parseLeadingIntS ((splitNOn '.' (k + 1) rest).getD 0 []) := by
  have hlen : (splitNOn '.' (k + 1) rest).length ≥ 1 := splitNOn_length_pos '.' k rest
  show (if (splitNOn '.' (k + 1) rest).length ≥ 1
    then parseLeadingIntS ((splitNOn '.' (k + 1) rest).getD 0 []) else -1) = _
  rw [if_pos hlen]

theorem parseS_restS (s : List Char) :
    ∃ pfx stab, ParseVersionS s = versionFromRest 4 pfx stab (restS s) := by
  unfold ParseVersionS restS
  dsimp only
  split
  · exact ⟨_, _, rfl⟩
  · split
    · exact ⟨_, _, rfl⟩
    · split
      · exact ⟨_, _, rfl⟩
      · exact ⟨_, _, rfl⟩

/-- C8: neither parser errors, but the claimed sign guarantee must be
weakened.  The string revision's major is exactly the 64-bit wrap of the
decimal numeral `numAcc` accumulates from the leading digits of the first
`.`-segment of `restS s` (the marker-stripped input), hence equal to that
numeral — and non-negative — exactly when the numeral stays below 2^63 (a
19-digit numeral can overflow Go's `int` and come out negative).  The
regex revision reads its major the same way from the first `.`-segment of
submatch 3 whenever its regular expression matches, but returns the
absent sentinel `-1` for any input the regex rejects — including
digit-leading ones such as `1foo`.  Both parsers are total (the regex one
never reaches its panic). -/
theorem claim_C8_major_sign :
    (∀ s : List Char,
      (ParseVersionS s).major
          = wrap64 ((numAcc ((splitNOn '.' 4 (restS s)).getD 0 []) 0 : Nat) : Int)
      ∧ (((numAcc ((splitNOn '.' 4 (restS s)).getD 0 []) 0 : Nat) : Int) < 2 ^ 63 →
          (ParseVersionS s).major
              = ((numAcc ((splitNOn '.' 4 (restS s)).getD 0 []) 0 : Nat) : Int)
          ∧ 0 ≤ (ParseVersionS s).major))
    ∧ (∀ (s : List Char) (v : Version), ParseVersionR s = some v →
        (∀ m, reSubs s = some m →
          v.major
              = wrap64 ((numAcc ((splitNOn '.' 3 (m.getD 3 [])).getD 0 []) 0 : Nat) : Int)
          ∧ (((numAcc ((splitNOn '.' 3 (m.getD 3 [])).getD 0 []) 0 : Nat) : Int) < 2 ^ 63 →
              v.major = ((numAcc ((splitNOn '.' 3 (m.getD 3 [])).getD 0 []) 0 : Nat) : Int)
              ∧ 0 ≤ v.major))
        ∧ (reSubs s = none → v.major = -1))
    ∧ (∀ s : List Char, (ParseVersionR s).isSome) := by
  refine ⟨?_, ?_, ?_⟩
  · intro s
    obtain ⟨pfx, stab, heq⟩ := parseS_restS s
    have hmaj : (ParseVersionS s).major
        = parseLeadingIntS ((splitNOn '.' 4 (restS s)).getD 0 []) := by
      rw [heq]
      exact versionFromRest_major_eq 3 pfx stab (restS s)
    rw [hmaj, parseLeadingIntS_eq]
    refine ⟨rfl, fun h => ?_⟩
    have hnn : (0 : Int)
        ≤ ((numAcc ((splitNOn '.' 4 (restS s)).getD 0 []) 0 : Nat) : Int) :=
      Int.natCast_nonneg _
    rw [wrap64_id _ (by omega) h]
    exact ⟨rfl, hnn⟩
  · intro s v h
    constructor
    · intro m hm
      rw [parseVersionR_some s m hm, if_pos (reSubs_length s m hm)] at h
      injection h with h2
      have hmaj : v.major
          = parseLeadingIntS ((splitNOn '.' 3 (m.getD 3 [])).getD 0 []) := by
        rw [← h2]
        exact versionFromRest_major_eq 2 (m.getD 2 []) (parseStability (m.getD 7 []))
          (m.getD 3 [])
      rw [hmaj, parseLeadingIntS_eq]
      refine ⟨rfl, fun hlt => ?_⟩
      have hnn : (0 : Int)
          ≤ ((numAcc ((splitNOn '.' 3 (m.getD 3 [])).getD 0 []) 0 : Nat) : Int) :=
        Int.natCast_nonneg _
      rw [wrap64_id _ (by omega) hlt]
      exact ⟨rfl, hnn⟩
    · intro hn
      rw [parseVersionR_none s hn] at h
      injection h with h2
      rw [← h2]
  · intro s
    cases hre : reSubs s with
    | none => rw [parseVersionR_none s hre]; rfl
    | some m => rw [parseVersionR_some s m hre, if_pos (reSubs_length s m hre)]; rfl

set_option maxRecDepth 4000 in
/-- C8 counterexample: the regex revision maps the digit-leading input
`1foo` to the absent sentinel `-1`, and the string revision maps the
19-digit numeral `9999999999999999999` (which overflows a 64-bit int) to a
negative major. -/
theorem claim_C8_cex :
    (ParseVersionR (chars "1foo")).map Version.major = some (-1)
    ∧ isDigit '1' = true
    ∧ (ParseVersionS (chars "9999999999999999999")).major < 0
    ∧ isDigit '9' = true := by
  decide

/-- C8 witness: the regex branch of the amended statement at the concrete
input `3.16`, with all three hypotheses (the parsed version, the regex
submatch, and the below-2^63 numeral bound) discharged. -/
theorem claim_C8_witness :
    ({ pfx := [], stability := [], major := 3, minor := 16, patch := -1 }
        : Version).major = ((numAcc (chars "3") 0 : Nat) : Int)
    ∧ 0 ≤ ({ pfx := [], stability := [], major := 3, minor := 16, patch := -1 }
        : Version).major
    ∧ (ParseVersionR (chars "3.16")).isSome = true := by
  have h := (claim_C8_major_sign.2.1 (chars "3.16")
    { pfx := [], stability := [], major := 3, minor := 16, patch := -1 } (by decide)).1
    [chars "3.16", [], [], chars "3.16", chars "3", chars ".16", [], []] (by decide)
  obtain ⟨heq2, hge⟩ := h.2 (by decide)
  exact ⟨heq2, hge, claim_C8_major_sign.2.2 (chars "3.16")⟩

theorem lookupA_upsertA_self {α : Type} (k : List Char) (v : α) :
    ∀ m : List (List Char × α), lookupA (upsertA m k v) k = some v := by
  intro m
  induction m with
  | nil => simp [upsertA, lookupA, List.find?]
  | cons e m ih =>
    by_cases h : e.1 = k
    · simp [upsertA, h, lookupA, List.find?]
    · simp only [upsertA, h, if_false]
      simp only [lookupA, List.find?] at ih ⊢
      simp [h, ih]

theorem lookupA_upsertA_ne {α : Type} (k k' : List Char) (v : α) (hne : ¬ k' = k) :
    ∀ m : List (List Char × α), lookupA (upsertA m k v) k' = lookupA m k' := by
  intro m
  have hne2 : ¬ (k = k') := fun h => hne h.symm
  induction m with
  | nil => simp [upsertA, lookupA, List.find?, hne2]
  | cons e m ih =>
    by_cases h : e.1 = k
    · have h2 : ¬ ((k, v).1 = k') := fun hc => hne (hc.symm)
      have h3 : ¬ (e.1 = k') := by rw [h]; exact fun hc => hne hc.symm
      simp only [upsertA, h, if_true]
      simp [lookupA, List.find?, h2, h3]
    · simp only [upsertA, h, if_false]
      by_cases h4 : e.1 = k'
      · simp [lookupA, List.find?, h4]
      · simp only [lookupA, List.find?] at ih ⊢
        simp [h4, ih]

theorem mem_keys_upsertA {α : Type} (k a : List Char) (v : α) :
    ∀ m : List (List Char × α),
      a ∈ (upsertA m k v).map Prod.fst → a = k ∨ a ∈ m.map Prod.fst := by
  intro m
  induction m with
  | nil => simp [upsertA]
  | cons e m ih =>
    by_cases h : e.1 = k
    · simp only [upsertA, h, if_true, List.map_cons, List.mem_cons]
      rintro (h2 | h2)
      · exact Or.inl h2
      · exact Or.inr (Or.inr h2)
    · simp only [upsertA, h, if_false, List.map_cons, List.mem_cons]
      rintro (h2 | h2)
      · exact Or.inr (Or.inl h2)
      · rcases ih h2 with h3 | h3
        · exact Or.inl h3
        · exact Or.inr (Or.inr h3)

theorem nodup_keys_upsertA {α : Type} (k : List Char) (v : α) :
    ∀ m : List (List Char × α), (m.map Prod.fst).Nodup →
      ((upsertA m k v).map Prod.fst).Nodup := by
  intro m
  induction m with
  | nil => simp [upsertA]
  | cons e m ih =>
    intro hn
    rw [List.map_cons, List.nodup_cons] at hn
    by_cases h : e.1 = k
    · simp only [upsertA, h, if_true, List.map_cons, List.nodup_cons]
      refine ⟨?_, hn.2⟩
      rw [← h]
      exact hn.1
    · simp only [upsertA, h, if_false, List.map_cons, List.nodup_cons]
      refine ⟨?_, ih hn.2⟩
      intro hc
      rcases mem_keys_upsertA k e.1 v m hc with h2 | h2
      · exact h h2
      · exact hn.1 h2

theorem mapOfFields_nodup_gen :
    ∀ (fs : List (List Char × JVal)) (acc : List (List Char × JVal)),
      (acc.map Prod.fst).Nodup →
      ((fs.foldl (fun m e => upsertA m e.1 e.2) acc).map Prod.fst).Nodup := by
  intro fs
  induction fs with
  | nil => intro acc h; simpa using h
  | cons e fs ih =>
    intro acc h
    rw [List.foldl_cons]
    exact ih _ (nodup_keys_upsertA e.1 e.2 acc h)

theorem mapOfFields_nodup (fs : List (List Char × JVal)) :
    ((mapOfFields fs).map Prod.fst).Nodup :=
  mapOfFields_nodup_gen fs [] (by simp)

theorem lookupA_of_mem_nodup {α : Type} (k : List Char) (v : α) :
    ∀ m : List (List Char × α), (k, v) ∈ m → (m.map Prod.fst).Nodup →
      lookupA m k = some v := by
  intro m
  induction m with
  | nil => simp
  | cons e m ih =>
    intro hm hn
    rw [List.map_cons, List.nodup_cons] at hn
    rcases List.mem_cons.mp hm with h | h
    · rw [← h]
      simp [lookupA, List.find?]
    · have hk : k ∈ m.map Prod.fst := List.mem_map.mpr ⟨(k, v), h, rfl⟩
      have hne : ¬ (e.1 = k) := fun hc => hn.1 (hc ▸ hk)
      simp only [lookupA, List.find?] at ih ⊢
      simp [hne, ih h hn.2]

theorem lookupA_some_mem {α : Type} (k : List Char) (v : α) :
    ∀ m : List (List Char × α), lookupA m k = some v → (k, v) ∈ m := by
  intro m h
  unfold lookupA at h
  cases hf : List.find? (fun e => decide (e.1 = k)) m with
  | none => rw [hf] at h; simp at h
  | some e =>
    rw [hf] at h
    have h1 := List.find?_some hf
    have h2 := List.mem_of_find?_eq_some hf
    rw [decide_eq_true_eq] at h1
    simp only [Option.map] at h
    have hv : e.2 = v := by
      cases h
      rfl
    have : e = (k, v) := by
      obtain ⟨a, b⟩ := e
      simp only at h1 hv
      rw [h1, hv]
    exact this ▸ h2

theorem lookupA_none_iff {α : Type} (k : List Char) :
    ∀ m : List (List Char × α), lookupA m k = none ↔ ¬ k ∈ m.map Prod.fst := by
  intro m
  unfold lookupA
  constructor
  · intro h hc
    rcases List.mem_map.mp hc with ⟨e, he, hk⟩
    cases hf : List.find? (fun e => decide (e.1 = k)) m with
    | none =>
      rw [List.find?_eq_none] at hf
      exact hf e he (by simp [hk])
    | some e2 => rw [hf] at h; simp [Option.map] at h
  · intro h
    cases hf : List.find? (fun e => decide (e.1 = k)) m with
    | none => rfl
    | some e2 =>
      exfalso
      have h1 := List.find?_some hf
      have h2 := List.mem_of_find?_eq_some hf
      rw [decide_eq_true_eq] at h1
      exact h (List.mem_map.mpr ⟨e2, h2, h1⟩)

theorem lookupA_perm_nodup {α : Type} {m m' : List (List Char × α)}
    (hp : m.Perm m') (hn : (m.map Prod.fst).Nodup) (k : List Char) :
    lookupA m k = lookupA m' k := by
  cases hl : lookupA m k with
  | some v =>
    exact (lookupA_of_mem_nodup k v m' (hp.mem_iff.mp (lookupA_some_mem k v m hl))
      (((hp.map Prod.fst).nodup_iff).mp hn)).symm
  | none =>
    refine ((lookupA_none_iff k m').mpr ?_).symm
    intro hc
    exact (lookupA_none_iff k m).mp hl ((hp.map Prod.fst).mem_iff.mpr hc)

theorem lookupA_sortByKey {α : Type} (m : List (List Char × α))
    (hn : (m.map Prod.fst).Nodup) (k : List Char) :
    lookupA (sortByKey m) k = lookupA m k := by
  unfold sortByKey
  exact lookupA_perm_nodup (sortBy_perm (fun a b : List Char × α => charsLt a.1 b.1) m)
    (((sortBy_perm (fun a b : List Char × α => charsLt a.1 b.1) m).map
      Prod.fst).nodup_iff.mpr hn) k

theorem lookupA_filterKey_self {α : Type} (key : List Char) :
    ∀ m : List (List Char × α),
      lookupA (m.filter (fun e => !(decide (e.1 = key)))) key = none := by
  intro m
  induction m with
  | nil => rfl
  | cons e m ih =>
    by_cases h : e.1 = key
    · rw [List.filter_cons, if_neg (by simp [h])]
      exact ih
    · rw [List.filter_cons, if_pos (by simp [h])]
      simp only [lookupA, List.find?] at ih ⊢
      simp [h, ih]

theorem lookupA_filterKey_ne {α : Type} (key k : List Char) (hne : ¬ k = key) :
    ∀ m : List (List Char × α),
      lookupA (m.filter (fun e => !(decide (e.1 = key)))) k = lookupA m k := by
  intro m
  induction m with
  | nil => rfl
  | cons e m ih =>
    by_cases h : e.1 = key
    · have h2 : ¬ (e.1 = k) := by rw [h]; exact fun hc => hne hc.symm
      rw [List.filter_cons, if_neg (by simp [h])]
      rw [ih]
      simp only [lookupA, List.find?] at ih ⊢
      simp [h2]
    · rw [List.filter_cons, if_pos (by simp [h])]
      by_cases h2 : e.1 = k
      · simp [lookupA, List.find?, h2]
      · simp only [lookupA, List.find?] at ih ⊢
        rw [show (decide (e.1 = k)) = false from by simp [h2]]
        exact ih

theorem nodup_keys_filter {α : Type} (p : List Char × α → Bool)
    (m : List (List Char × α)) (hn : (m.map Prod.fst).Nodup) :
    (((m.filter p).map Prod.fst)).Nodup :=
  ((List.filter_sublist m).map Prod.fst).nodup hn

theorem unmarshal_raw_nodup (data : List Char) (c : ComposerJSON)
    (h : unmarshalComposerJSON data = some c) : (c.raw.map Prod.fst).Nodup := by
  unfold unmarshalComposerJSON at h
  revert h
  cases hp : parseJSON data with
  | none => intro h; exact absurd h (by simp)
  | some v =>
    cases v with
    | null =>
      intro h
      injection h with h2
      rw [← h2]
      simp
    | bool b => intro h; exact absurd h (by simp)
    | num lex => intro h; exact absurd h (by simp)
    | str lex => intro h; exact absurd h (by simp)
    | arr es => intro h; exact absurd h (by simp)
    | obj fs =>
      intro h
      have h2 : (match lookupA (rawOfFields fs) (chars "require") with
        | none => some { require := none, raw := rawOfFields fs }
        | some JVal.null => some { require := none, raw := rawOfFields fs }
        | some (JVal.obj rf) =>
          Option.map (fun m => ({ require := some m, raw := rawOfFields fs } : ComposerJSON))
            (requireOfFields (JFields.toList rf))
        | some _ => none) = some c := h
      clear h
      revert h2
      cases hl : lookupA (rawOfFields fs) (chars "require") with
      | none =>
        intro h3
        injection h3 with h4
        rw [← h4]
        exact mapOfFields_nodup _
      | some w =>
        cases w with
        | null =>
          intro h3
          injection h3 with h4
          rw [← h4]
          exact mapOfFields_nodup _
        | bool b => intro h3; exact absurd h3 (by simp)
        | num lex => intro h3; exact absurd h3 (by simp)
        | str lex => intro h3; exact absurd h3 (by simp)
        | arr es => intro h3; exact absurd h3 (by simp)
        | obj rf =>
          intro h3
          have h5 : Option.map
              (fun m => ({ require := some m, raw := rawOfFields fs } : ComposerJSON))
              (requireOfFields (JFields.toList rf)) = some c := h3
          cases hr : requireOfFields (JFields.toList rf) with
          | none => rw [hr] at h5; exact absurd h5 (by simp)
          | some m =>
            rw [hr] at h5
            injection h5 with h4
            rw [← h4]
            exact mapOfFields_nodup _

theorem marshalFields_lookup_ne (c : ComposerJSON) (hn : (c.raw.map Prod.fst).Nodup)
    (k : List Char) (hk : ¬ k = chars "require") :
    lookupA (marshalFields c) k = lookupA c.raw k := by
  unfold marshalFields
  cases hr : c.require with
  | some m =>
    rw [lookupA_sortByKey _ (nodup_keys_upsertA _ _ _ hn) k]
    exact lookupA_upsertA_ne _ k _ hk c.raw
  | none =>
    rw [lookupA_sortByKey _ (nodup_keys_filter _ _ hn) k]
    exact lookupA_filterKey_ne _ k hk c.raw

theorem marshalFields_req_some (c : ComposerJSON) (hn : (c.raw.map Prod.fst).Nodup)
    (m : List (List Char × List Char)) (hr : c.require = some m) :
    lookupA (marshalFields c) (chars "require") = some (requireJVal m) := by
  unfold marshalFields
  rw [hr]
  rw [lookupA_sortByKey _ (nodup_keys_upsertA _ _ _ hn) _]
  exact lookupA_upsertA_self _ _ c.raw

theorem marshalFields_req_none (c : ComposerJSON) (hn : (c.raw.map Prod.fst).Nodup)
    (hr : c.require = none) :
    lookupA (marshalFields c) (chars "require") = none := by
  unfold marshalFields
  rw [hr]
  rw [lookupA_sortByKey _ (nodup_keys_filter _ _ hn) _]
  exact lookupA_filterKey_self _ c.raw

/-- C4 (amended): for every manifest that decodes successfully, composer.go's
re-encoding preserves each original non-`require` field's value exactly
(same raw lexemes, so the same bytes up to `MarshalIndent`'s whitespace
layout — byte-for-byte reproduction fails, see the counterexample), the
`require` field is re-serialized canonically when the dependency map is
non-nil and removed when it is nil, the emitted top-level fields are in
sorted key order, and the re-serialized dependency map lists its keys in
sorted order (`requireJVal` writes the entries of `sortByKey m`). -/
theorem claim_C4_roundtrip :
    ∀ (data : List Char) (c : ComposerJSON), unmarshalComposerJSON data = some c →
      (∀ k, ¬ k = chars "require" → lookupA (marshalFields c) k = lookupA c.raw k)
      ∧ (∀ m, c.require = some m →
          lookupA (marshalFields c) (chars "require") = some (requireJVal m))
      ∧ (c.require = none → lookupA (marshalFields c) (chars "require") = none)
      ∧ List.Chain' (fun a b : List Char × JVal => charsLt b.1 a.1 = false) (marshalFields c)
      ∧ ∀ m : List (List Char × List Char),
          List.Chain' (fun a b : List Char × List Char => charsLt b.1 a.1 = false) (sortByKey m) := by
  intro data c h
  have hn := unmarshal_raw_nodup data c h
  refine ⟨fun k hk => marshalFields_lookup_ne c hn k hk,
    fun m hm => marshalFields_req_some c hn m hm,
    fun hm => marshalFields_req_none c hn hm, ?_, ?_⟩
  · unfold marshalFields
    exact chain_sortBy _ _ (fun x y hxy => charsLt_asymm x.1 y.1 hxy) (fun x y hxy => hxy) _
  · intro m
    unfold sortByKey
    exact chain_sortBy _ _ (fun x y hxy => charsLt_asymm x.1 y.1 hxy) (fun x y hxy => hxy) m

set_option maxRecDepth 8000 in
/-- C4 counterexample to byte-for-byte reproduction of non-dependency
fields: `c4Data` decodes successfully and its field `"a"` is written
`[1, 2]`, but the re-encoded output never contains the bytes `[1, 2]` —
`MarshalIndent` re-lays the compacted raw message out on separate lines. -/
theorem claim_C4_cex :
    goContains c4Data (chars "[1, 2]") = true
    ∧ (unmarshalComposerJSON c4Data).map
        (fun c => goContains (marshalComposerJSON c) (chars "[1, 2]")) = some false :=
  ⟨by decide, by decide⟩

theorem claim_C4_witness :
    lookupA (marshalFields
      { require := none, raw := [(chars "name", JVal.str (chars "x"))] })
      (chars "require") = none :=
  (claim_C4_roundtrip c9Data
    { require := none, raw := [(chars "name", JVal.str (chars "x"))] }
    (by rfl)).2.2.1 rfl

/-- C9 (amended): when the manifest decodes as a JSON object with no
`require` field, composer.go's decoder succeeds with a nil (`none`)
dependency map and its encoder omits the `require` field from the output —
exactly as claimed.  drupalupdate.go's `MarshalComposerJSON`, however,
always emits a `require` field: when the dependency map is nil it writes
`sortedRequire(nil)`, a present-but-empty object (see the counterexample). -/
theorem claim_C9_absent_require :
    (∀ (data : List Char) (fs : JFields), parseJSON data = some (JVal.obj fs) →
      lookupA (rawOfFields fs) (chars "require") = none →
      ∃ c, unmarshalComposerJSON data = some c ∧ c.require = none
        ∧ lookupA (marshalFields c) (chars "require") = none)
    ∧ (∀ (c : ComposerJSONDU) (fs : List (List Char × JVal)),
        duMarshalFields c = some fs → c.require = none →
        lookupA fs (chars "require") = some (requireJVal [])) := by
  constructor
  · intro data fs hpar hlook
    refine ⟨{ require := none, raw := rawOfFields fs }, ?_, rfl, ?_⟩
    · unfold unmarshalComposerJSON
      rw [hpar]
      show (match lookupA (rawOfFields fs) (chars "require") with
        | none => some { require := none, raw := rawOfFields fs }
        | some JVal.null => some { require := none, raw := rawOfFields fs }
        | some (JVal.obj rf) =>
          Option.map (fun m => ({ require := some m, raw := rawOfFields fs } : ComposerJSON))
            (requireOfFields (JFields.toList rf))
        | some _ => none) = some { require := none, raw := rawOfFields fs }
      rw [hlook]
    · exact marshalFields_req_none _ (mapOfFields_nodup _) rfl
  · intro c fs hdu hreq
    have h2 : (match parseJSON c.rawBytes with
      | some (JVal.obj fs2) =>
        some (sortByKey (upsertA (rawOfFields fs2) (chars "require")
          (requireJVal (sortedRequire (c.require.getD [])))))
      | _ => none) = some fs := hdu
    clear hdu
    revert h2
    cases hp : parseJSON c.rawBytes with
    | none => intro h3; exact absurd h3 (by simp)
    | some v =>
      cases v with
      | null => intro h3; exact absurd h3 (by simp)
      | bool b => intro h3; exact absurd h3 (by simp)
      | num lex => intro h3; exact absurd h3 (by simp)
      | str lex => intro h3; exact absurd h3 (by simp)
      | arr es => intro h3; exact absurd h3 (by simp)
      | obj fs2 =>
        intro h3
        injection h3 with h4
        rw [← h4, hreq]
        rw [lookupA_sortByKey _
          (nodup_keys_upsertA (chars "require")
            (requireJVal (sortedRequire ((none : Option (List (List Char × List Char))).getD [])))
            (rawOfFields fs2) (mapOfFields_nodup _)) _]
        rw [lookupA_upsertA_self]
        rfl

set_option maxRecDepth 4000 in
/-- C9 counterexample: on the `require`-less manifest `c9Data`,
drupalupdate.go's codec decodes with a nil dependency map but its output
field map contains `"require"` bound to the empty object — the field is
emitted as `{}` rather than omitted. -/
theorem claim_C9_cex :
    ParseComposerJSONDU c9Data = some { require := none, rawBytes := c9Data }
    ∧ duMarshalFields { require := none, rawBytes := c9Data } =
        some [(chars "name", JVal.str (chars "x")),
              (chars "require", JVal.obj JFields.nil)]
    ∧ lookupA [(chars "name", JVal.str (chars "x")),
               (chars "require", JVal.obj JFields.nil)] (chars "require") =
        some (JVal.obj JFields.nil) :=
  ⟨rfl, rfl, rfl⟩

set_option maxRecDepth 4000 in
theorem claim_C9_witness :
    lookupA (marshalFields
      { require := none, raw := [(chars "name", JVal.str (chars "x"))] })
      (chars "require") = none ∧
    lookupA [(chars "require", JVal.obj JFields.nil)] (chars "require") =
      some (requireJVal []) := by
  constructor
  · obtain ⟨c, hc, hreq, hlook⟩ := claim_C9_absent_require.1 c9Data
      (JFields.cons (chars "name") (JVal.str (chars "x")) JFields.nil) rfl rfl
    have h2 : some c =
        some ({ require := none, raw := [(chars "name", JVal.str (chars "x"))] }
          : ComposerJSON) := hc.symm.trans rfl
    injection h2 with h3
    rw [← h3]
    exact hlook
  · exact claim_C9_absent_require.2 { require := none, rawBytes := chars "\x7b\x7d" }
      [(chars "require", JVal.obj JFields.nil)] rfl rfl
